import Mathlib

/-!
# Verification of `md-toc-generator.py`

A shallow embedding of the markdown TOC generator.  Text is modelled as
`List Char`; a document is the list of characters of the file content, and
lines (obtained by `str.split('\n')`) are `List Char` values that contain no
`'\n'`.  Python dictionaries `Dict[int, int]` (the chapter-index state) are
modelled as association lists kept sorted by key; all observations the code
makes of the dictionary (`sorted(keys)`, `max(keys)`, `get`, deletion,
assignment) are order independent, so this is a faithful model of the value
of the dictionary as a finite map.

Caveats of the embedding, stated once here:
* Python's `\s` (in a unicode pattern) also matches exotic unicode
  whitespace; the model covers the ASCII whitespace characters.
* Python's `str.lower` lowercases unicode; `Char.toLower` covers ASCII.
* `max()` of an empty dictionary raises in Python; the model returns the
  junk value `0` there.  The scan provably never calls it on an empty
  mapping (the key `min_toc_level` is inserted initially and never deleted),
  so the junk value is never observed.
* `re.sub` processes backslash escapes in its replacement argument and can
  raise on a stray escape; the model substitutes the replacement literally.
  Theorems about the full pipeline therefore carry a `'\\' ∉ content`
  hypothesis where this could matter.
-/

/-- The ASCII whitespace characters matched by Python's `\s`. -/
def pySpace (c : Char) : Bool :=
  c = ' ' || c = '\t' || c = '\n' || c = '\r' || c = '\x0b' || c = '\x0c'

/-- Characters matched by the class `[.\d]` of `RE_NUMBERED_HEADER_NAME`. -/
def isDigitDot (c : Char) : Bool :=
  c.isDigit || c = '.'

/-- Decimal digits of `n`, with explicit fuel (one digit is produced per
fuel step, and `n` has at most `n + 1` digits, so `natRepr` supplies enough
fuel).  This is the embedding of Python's `str(n)` for natural `n`. -/
def natReprAux : Nat → Nat → List Char
  | 0, _ => []
  | fuel + 1, n =>
    if n < 10 then [Nat.digitChar n]
    else natReprAux fuel (n / 10) ++ [Nat.digitChar (n % 10)]

/-- The decimal representation of `n`: the embedding of `str(n)`. -/
def natRepr (n : Nat) : List Char :=
  natReprAux (n + 1) n

/-- `sep.join(xs)` of Python. -/
def joinWith (sep : List Char) : List (List Char) → List Char
  | [] => []
  | [x] => x
  | x :: y :: ys => x ++ sep ++ joinWith sep (y :: ys)

/-- `content.split('\n')` of Python: splitting on every newline, keeping
empty pieces (so the result is always nonempty). -/
def splitLines : List Char → List (List Char)
  | [] => [[]]
  | c :: t =>
    if c = '\n' then [] :: splitLines t
    else
      match splitLines t with
      | [] => [[c]]
      | l :: ls => (c :: l) :: ls

/-- Does `pat` occur as a contiguous substring of `s`?  (Substring search,
used to state occurrence-freeness side conditions.) -/
def containsSub (pat : List Char) : List Char → Bool
  | [] => pat.isEmpty
  | c :: t => pat.isPrefixOf (c :: t) || containsSub pat t

/-- The number of positions of `s` at which `pat` matches. -/
def countOcc (pat : List Char) : List Char → Nat
  | [] => if pat.isEmpty then 1 else 0
  | c :: t => (if pat.isPrefixOf (c :: t) then 1 else 0) + countOcc pat t

/-- Split `s` around the first occurrence of `pat`:
`splitOnFirst pat s = some (a, b)` iff `s = a ++ pat ++ b` with the
occurrence leftmost. -/
def splitOnFirst (pat : List Char) : List Char → Option (List Char × List Char)
  | [] => if pat.isEmpty then some ([], []) else none
  | c :: t =>
    if pat.isPrefixOf (c :: t) then some ([], (c :: t).drop pat.length)
    else
      match splitOnFirst pat t with
      | some (a, b) => some (c :: a, b)
      | none => none

/-- Split `s` around the last occurrence of `pat` (the occurrence starting
at the largest position). -/
def splitOnLast (pat : List Char) : List Char → Option (List Char × List Char)
  | [] => if pat.isEmpty then some ([], []) else none
  | c :: t =>
    match splitOnLast pat t with
    | some (a, b) => some (c :: a, b)
    | none =>
      if pat.isPrefixOf (c :: t) then some ([], (c :: t).drop pat.length)
      else none

/-- Scanner for `replaceFirstN`: `n` replacements remain; `skip` counts
characters still to be consumed silently because they belong to the last
replaced match (the replacement is never rescanned).  When `skip = 0` and a
match starts here with `n > 0`, the replacement is emitted and the matched
characters are skipped; otherwise the character is copied. -/
def replaceFirstNAux (pat repl : List Char) : Nat → Nat → List Char → List Char
  | _, _, [] => []
  | n, skip + 1, _ :: t => replaceFirstNAux pat repl n skip t
  | n, 0, c :: t =>
    if n ≠ 0 && pat.isPrefixOf (c :: t) then
      repl ++ replaceFirstNAux pat repl (n - 1) (pat.length - 1) t
    else c :: replaceFirstNAux pat repl n 0 t

/-- Replace the first (leftmost, non-overlapping) `n` occurrences of `pat`
in `s` by `repl`, the replacement not being rescanned: the embedding of
`re.sub(re.escape(pat), repl, s, n)` for a literal pattern.  (The guard for
an empty pattern never fires on the nonempty literals used below.) -/
def replaceFirstN (n : Nat) (pat repl : List Char) (s : List Char) : List Char :=
  if pat.isEmpty then s else replaceFirstNAux pat repl n 0 s

/-! ## Global constants of the script -/

/-- `TOC_CHAPTER_NAME`: default title of the TOC chapter. -/
def TOC_CHAPTER_NAME : List Char := "Table of content".data

/-- `TOC_BEGIN` marker. -/
def TOC_BEGIN : List Char := "$%TOC_BEGIN$".data

/-- `TOC_END` marker. -/
def TOC_END : List Char := "$%TOC_END$".data

/-- `TOC_MARK`: the placeholder replaced by the generated TOC. -/
def TOC_MARK : List Char := "[TOC]".data

/-! ## Header recognition and numbering -/

/-- The embedding of `RE_HEADER = r'^(#+)\s+(.*)\s*$'` applied to a single
line (no `'\n'` inside): a successful match yields the header level (the
length of the maximal leading run of `'#'`) and the header text (the rest of
the line after the maximal whitespace run following the `'#'`s; the trailing
`\s*` always matches the empty string because `(.*)` is greedy). -/
def parseHeader (line : List Char) : Option (Nat × List Char) :=
  let hashes := line.takeWhile (fun c => c = '#')
  if hashes.isEmpty then none
  else
    let rest := line.dropWhile (fun c => c = '#')
    let ws := rest.takeWhile pySpace
    if ws.isEmpty then none
    else some (hashes.length, rest.dropWhile pySpace)

/-- The embedding of `RE_NUMBERED_HEADER_NAME.sub(r"\2", current_name)` with
`RE_NUMBERED_HEADER_NAME = r'^([.\d]+)\s+(.*)$'`: if the name starts with a
nonempty run of digits/dots followed by a nonempty whitespace run, the whole
name is replaced by what follows that whitespace; otherwise it is kept. -/
def stripNumberPrefix (name : List Char) : List Char :=
  let digs := name.takeWhile isDigitDot
  if digs.isEmpty then name
  else
    let rest := name.dropWhile isDigitDot
    let ws := rest.takeWhile pySpace
    if ws.isEmpty then name
    else rest.dropWhile pySpace

/-! ## The chapter-index mapping (`CHAPTER_INDEXES = Dict[int, int]`) -/

/-- The chapter-index mapping, as an association list sorted by key. -/
def CHAPTER_INDEXES : Type := List (Nat × Nat)

instance : DecidableEq CHAPTER_INDEXES := by
  unfold CHAPTER_INDEXES
  infer_instance

/-- The key list of the mapping. -/
def ciKeys (m : CHAPTER_INDEXES) : List Nat :=
  (m : List (Nat × Nat)).map Prod.fst

/-- `indexes[k]` as an option. -/
def ciGet : CHAPTER_INDEXES → Nat → Option Nat
  | [], _ => none
  | (k', v') :: rest, k => if k = k' then some v' else ciGet rest k

/-- `indexes.get(k, d)`. -/
def ciGetD (m : CHAPTER_INDEXES) (k d : Nat) : Nat :=
  (ciGet m k).getD d

/-- `indexes[k] = v`: insert or overwrite, keeping the list sorted by key. -/
def ciInsert : CHAPTER_INDEXES → Nat → Nat → CHAPTER_INDEXES
  | [], k, v => [(k, v)]
  | (k', v') :: rest, k, v =>
    if k < k' then (k, v) :: (k', v') :: rest
    else if k = k' then (k, v) :: rest
    else (k', v') :: ciInsert rest k v

/-- `for key in filter(lambda x: x > level, list(indexes.keys())):
del indexes[key]` — delete every key greater than `level`. -/
def ciEraseGt (m : CHAPTER_INDEXES) (level : Nat) : CHAPTER_INDEXES :=
  (m : List (Nat × Nat)).filter (fun p => p.fst ≤ level)

/-- `max(indexes.keys())`, with junk value `0` for the (unreachable) empty
mapping — see the header comment. -/
def ciMaxKey (m : CHAPTER_INDEXES) : Nat :=
  (ciKeys m).foldr max 0

/-- One pass of insertion sort (by key), used to model `sorted(keys)`. -/
def insertPairSorted (p : Nat × Nat) : List (Nat × Nat) → List (Nat × Nat)
  | [] => [p]
  | q :: rest => if p.fst ≤ q.fst then p :: q :: rest else q :: insertPairSorted p rest

/-- Insertion sort by key: the embedding of iterating over
`sorted(indexes.keys())` (the association list is kept sorted, so this is
the identity on reachable states, but the sort is performed as the code
does). -/
def sortPairs : List (Nat × Nat) → List (Nat × Nat)
  | [] => []
  | p :: rest => insertPairSorted p (sortPairs rest)

/-- `'.'.join([str(indexes[x]) for x in sorted(indexes.keys())])`. -/
def dottedIndex (m : CHAPTER_INDEXES) : List Char :=
  joinWith ['.'] ((sortPairs m).map (fun p => natRepr p.snd))

/-- `get_new_chapter_name(current_name, indexes)`: strip a pre-existing
numeric prefix from the name and prepend the dotted join of the counters in
ascending key order. -/
def get_new_chapter_name (current_name : List Char) (indexes : CHAPTER_INDEXES) :
    List Char :=
  dottedIndex indexes ++ ' ' :: stripNumberPrefix current_name

/-- The while-loop
`while True: key = max(keys); if key >= level: break; indexes[key+1] = 0`,
with explicit fuel.  Every iteration raises `max(keys)` by one, so at most
`level - max(keys) ≤ level` iterations run; `ciFill` supplies fuel `level`,
which is proved sufficient (`ciFillAux_fuel_enough`). -/
def ciFillAux : Nat → CHAPTER_INDEXES → Nat → CHAPTER_INDEXES
  | 0, m, _ => m
  | fuel + 1, m, level =>
    let key := ciMaxKey m
    if key ≥ level then m
    else ciFillAux fuel (ciInsert m (key + 1) 0) level

/-- Open the intermediate levels `max(keys)+1 .. level` with counter `0`. -/
def ciFill (m : CHAPTER_INDEXES) (level : Nat) : CHAPTER_INDEXES :=
  ciFillAux level m level

/-! ## The scan (`get_chapter_names`) -/

/-- `f'WARN: level ({level}) of chapter "{chapter_name}" is larger than
expected ({current_chapter_level + 1})'`. -/
def warnMsg (level : Nat) (chapter_name : List Char) (current_chapter_level : Nat) :
    List Char :=
  "WARN: level (".data ++ natRepr level ++ ") of chapter \"".data ++
    chapter_name ++ "\" is larger than expected (".data ++
    natRepr (current_chapter_level + 1) ++ ")".data

/-- Result of a scan: the returned chapter names, the final chapter-index
mapping, the lines appended to `new_content` (empty when no output buffer
was passed), and the warnings printed to the diagnostic stream. -/
structure ScanResult where
  names : List (List Char)
  idx : CHAPTER_INDEXES
  out : List (List Char)
  warns : List (List Char)
deriving DecidableEq

/-- What one loop iteration of `get_chapter_names` does with one line. -/
inductive StepRes where
  /-- The line is not a header, or is a header below `min_toc_level`:
  it is passed through unchanged and the loop continues. -/
  | pass : StepRes
  /-- The line is a header at level `≥ min_toc_level`: the chapter-index
  state is updated, the name recorded, the rewritten line emitted, and the
  function recurses from the next line with `current_chapter_level = level`. -/
  | hit (storedName : List Char) (m2 : CHAPTER_INDEXES) (level : Nat)
      (outLine : List Char) (warns : List (List Char)) : StepRes

/-- The body of one loop iteration of `get_chapter_names`, for the line
`line` under output flag `output`, minimum level `min_toc_level`, mapping
`m` and (entry-maxed) current level `cur`. -/
def scanStep (output : Bool) (min_toc_level : Nat) (line : List Char)
    (m : CHAPTER_INDEXES) (cur : Nat) : StepRes :=
  match parseHeader line with
  | none => .pass
  | some (level, chapter_name) =>
    if level < min_toc_level then .pass
    else
      let m1 :=
        if level < cur then ciEraseGt m level
        else if level > cur then ciFill m level
        else m
      let warns :=
        if level > cur then
          if level - cur > 1 then [warnMsg level chapter_name cur] else []
        else []
      let m2 := ciInsert m1 level (ciGetD m1 level 0 + 1)
      let newName := get_new_chapter_name chapter_name m2
      let storedName := if output then newName else chapter_name
      let outLine := List.replicate level '#' ++ ' ' :: newName
      .hit storedName m2 level outLine warns

/-- The recursive scan of `get_chapter_names`, structurally on the list of
remaining lines.  A loop iteration over a non-header (or sub-threshold) line
is the step to the next line with unchanged state; on a qualifying header
the Python code appends the name, recurses from the next line with
`current_chapter_level = level` sharing the mutable state, and then breaks
out of its loop — so its continuation is exactly the recursive call, and
the whole computation is this single recursion.  `current_chapter_level` is
re-maxed with `min_toc_level` at every step, as the Python function does at
entry (`max` is idempotent and every recursive call passes a level
`≥ min_toc_level`, so the placement is equivalent). -/
def scanLines (output : Bool) (min_toc_level : Nat) :
    List (List Char) → CHAPTER_INDEXES → Nat → ScanResult
  | [], m, _ => ⟨[], m, [], []⟩
  | line :: rest, m, cur =>
    match scanStep output min_toc_level line m (max min_toc_level cur) with
    | .pass =>
      let r := scanLines output min_toc_level rest m cur
      ⟨r.names, r.idx, if output then line :: r.out else r.out, r.warns⟩
    | .hit storedName m2 level outLine warns =>
      let r := scanLines output min_toc_level rest m2 level
      ⟨storedName :: r.names, r.idx,
        if output then outLine :: r.out else r.out, warns ++ r.warns⟩

/-- `get_chapter_names(content_lines, start_line_index, chapter_indexes,
current_chapter_level, min_toc_level, new_content)`.  Scanning from
`start_line_index` is scanning the suffix `content_lines.drop
start_line_index`; `chapter_indexes = None` defaults to
`{min_toc_level: 0}`. -/
def get_chapter_names (content_lines : List (List Char))
    (start_line_index : Nat := 0)
    (chapter_indexes : Option CHAPTER_INDEXES := none)
    (current_chapter_level : Nat := 0) (min_toc_level : Nat := 2)
    (output_new_content : Bool := false) : ScanResult :=
  scanLines output_new_content min_toc_level
    (content_lines.drop start_line_index)
    (chapter_indexes.getD [(min_toc_level, 0)]) current_chapter_level

/-! ## TOC rendering -/

/-- The number of dots of the numeric prefix of a numbered chapter name
(`group(1)` of the first match of `RE_NUMBERED_HEADER_NAME`); Python raises
`StopIteration` when there is no match, which cannot happen on the numbered
names produced by the scan — the model returns `0` on that unreachable
branch. -/
def chapterDepth (chapter_name : List Char) : Nat :=
  let digs := chapter_name.takeWhile isDigitDot
  if digs.isEmpty then 0
  else
    let rest := chapter_name.dropWhile isDigitDot
    if (rest.takeWhile pySpace).isEmpty then 0
    else digs.count '.'

/-- The anchor slug: remove `.`, `/`, `#`, `-`, `&`, turn spaces into
hyphens, lowercase. -/
def chapterLink (chapter_name : List Char) : List Char :=
  ((((((chapter_name.filter (fun c => c ≠ '.')).filter
      (fun c => c ≠ '/')).filter (fun c => c ≠ '#')).filter
      (fun c => c ≠ '-')).filter (fun c => c ≠ '&')).map
      (fun c => if c = ' ' then '-' else c)).map Char.toLower

/-- `chapter_name_to_md_item(chapter_name)`:
`f"{'  ' * chapter_level}- [{chapter_name}](#{chapter_link})"`. -/
def chapter_name_to_md_item (chapter_name : List Char) : List Char :=
  List.replicate (2 * chapterDepth chapter_name) ' ' ++
    "- [".data ++ chapter_name ++ "](#".data ++ chapterLink chapter_name ++ ")".data

/-- The generated TOC block:
`TOC_BEGIN + f'\n## {toc_chapter_name}\n' + '\n'.join(items) + '\n' + TOC_END`. -/
def tocContent (toc_chapter_name : List Char) (chapter_names : List (List Char)) :
    List Char :=
  TOC_BEGIN ++ '\n' :: "## ".data ++ toc_chapter_name ++ '\n' ::
    joinWith ['\n'] (chapter_names.map chapter_name_to_md_item) ++ '\n' :: TOC_END

/-- `RE_TOC_FINISHED.sub(TOC_MARK, content)` with
`RE_TOC_FINISHED = TOC_BEGIN(?:\n|.)*TOC_END` (greedy): the single maximal
match runs from the first occurrence of `TOC_BEGIN` to the end of the last
occurrence of `TOC_END` after it; if either marker is missing (in that
order) nothing matches and the content is unchanged.  After the replacement
no `TOC_END` remains to the right, so there is no second match. -/
def collapseToc (content : List Char) : List Char :=
  match splitOnFirst TOC_BEGIN content with
  | none => content
  | some (a, rest) =>
    match splitOnLast TOC_END rest with
    | none => content
    | some (_, b) => a ++ TOC_MARK ++ b

/-- `RE_TOC_INIT.sub(toc_content, new_content, re.MULTILINE)`: the flag
`re.MULTILINE` has integer value `8` and is passed as the `count` argument,
so at most the first 8 occurrences of `[TOC]` are replaced. -/
def spliceToc (toc_content new_content : List Char) : List Char :=
  replaceFirstN 8 TOC_MARK toc_content new_content

/-- `generate_file_toc` without the file I/O: the in-memory transformation
from old file content to new file content, with the default TOC title. -/
def generate_content (content : List Char) : List Char :=
  let content1 := collapseToc content
  let content_lines := splitLines content1
  let r := scanLines true 2 content_lines [(2, 0)] 0
  let toc_content := tocContent TOC_CHAPTER_NAME r.names
  spliceToc toc_content (joinWith ['\n'] r.out)

/-! ## Specification-side views used to state the claims -/

/-- The qualifying headers of a list of lines: the headers at level
`≥ min_toc_level`, with their levels and raw names, in order. -/
def qualifyingHeaders (min_toc_level : Nat) (lines : List (List Char)) :
    List (Nat × List Char) :=
  lines.filterMap (fun line =>
    match parseHeader line with
    | some (level, name) =>
      if level < min_toc_level then none else some (level, name)
    | none => none)

/-- Is this line a qualifying header? -/
def isQualifying (min_toc_level : Nat) (line : List Char) : Bool :=
  match parseHeader line with
  | some (level, _) => decide (min_toc_level ≤ level)
  | none => false

/-- The numbering automaton run only over the qualifying headers: the scan
restricted to its state changes (proved equal to the scan's name/index/
warning components in `scanLines_spec`). -/
def runHeaders : List (Nat × List Char) → CHAPTER_INDEXES → Nat → Nat →
    List (List Char) × CHAPTER_INDEXES × List (List Char)
  | [], m, _, _ => ([], m, [])
  | (level, name) :: rest, m, cur, min_toc_level =>
    let curM := max min_toc_level cur
    let m1 :=
      if level < curM then ciEraseGt m level
      else if level > curM then ciFill m level
      else m
    let warns :=
      if level > curM then
        if level - curM > 1 then [warnMsg level name curM] else []
      else []
    let m2 := ciInsert m1 level (ciGetD m1 level 0 + 1)
    let r := runHeaders rest m2 level min_toc_level
    (get_new_chapter_name name m2 :: r.1, r.2.1, warns ++ r.2.2)


/-! ## Unfolding equations for the scan -/

/-- A non-header line is passed through. -/
theorem scanStep_eq_pass_of_none (output : Bool) (mn : Nat) (line : List Char)
    (m : CHAPTER_INDEXES) (cur : Nat) (hp : parseHeader line = none) :
    scanStep output mn line m cur = .pass := by
  simp [scanStep, hp]

/-- A header below `min_toc_level` is passed through. -/
theorem scanStep_eq_pass_of_low (output : Bool) (mn : Nat) (line : List Char)
    (m : CHAPTER_INDEXES) (cur level : Nat) (name : List Char)
    (hp : parseHeader line = some (level, name)) (h : level < mn) :
    scanStep output mn line m cur = .pass := by
  simp [scanStep, hp, h]

/-- A qualifying header is processed: close deeper levels or open missing
ones, increment the counter at `level`, rename, rewrite. -/
theorem scanStep_eq_hit (output : Bool) (mn : Nat) (line : List Char)
    (m : CHAPTER_INDEXES) (cur level : Nat) (name : List Char)
    (hp : parseHeader line = some (level, name)) (h : ¬ level < mn) :
    scanStep output mn line m cur =
      .hit
        (if output then
          get_new_chapter_name name
            (ciInsert
              (if level < cur then ciEraseGt m level
                else if level > cur then ciFill m level else m)
              level
              (ciGetD
                (if level < cur then ciEraseGt m level
                  else if level > cur then ciFill m level else m)
                level 0 + 1))
          else name)
        (ciInsert
          (if level < cur then ciEraseGt m level
            else if level > cur then ciFill m level else m)
          level
          (ciGetD
            (if level < cur then ciEraseGt m level
              else if level > cur then ciFill m level else m)
            level 0 + 1))
        level
        (List.replicate level '#' ++ ' ' ::
          get_new_chapter_name name
            (ciInsert
              (if level < cur then ciEraseGt m level
                else if level > cur then ciFill m level else m)
              level
              (ciGetD
                (if level < cur then ciEraseGt m level
                  else if level > cur then ciFill m level else m)
                level 0 + 1)))
        (if level > cur then
          if level - cur > 1 then [warnMsg level name cur] else []
          else []) := by
  simp only [scanStep, hp, if_neg h]

/-- Unfolding: the empty scan. -/
theorem scanLines_nil (output : Bool) (mn : Nat) (m : CHAPTER_INDEXES) (cur : Nat) :
    scanLines output mn [] m cur = ⟨[], m, [], []⟩ := rfl

/-- Unfolding: a passed-over line. -/
theorem scanLines_pass (output : Bool) (mn : Nat) (line : List Char)
    (rest : List (List Char)) (m : CHAPTER_INDEXES) (cur : Nat)
    (h : scanStep output mn line m (max mn cur) = .pass) :
    scanLines output mn (line :: rest) m cur =
      ⟨(scanLines output mn rest m cur).names,
        (scanLines output mn rest m cur).idx,
        if output then line :: (scanLines output mn rest m cur).out
          else (scanLines output mn rest m cur).out,
        (scanLines output mn rest m cur).warns⟩ := by
  simp only [scanLines, h]

/-- Unfolding: a processed header.  The call itself records the header's
name and rewritten line; everything after the header is handled by the
recursive call with `current_chapter_level = level`, whose results are
appended — the processed header is never re-encountered by any caller. -/
theorem scanLines_hit (output : Bool) (mn : Nat) (line : List Char)
    (rest : List (List Char)) (m : CHAPTER_INDEXES) (cur : Nat)
    (storedName : List Char) (m2 : CHAPTER_INDEXES) (level : Nat)
    (outLine : List Char) (warns : List (List Char))
    (h : scanStep output mn line m (max mn cur) = .hit storedName m2 level outLine warns) :
    scanLines output mn (line :: rest) m cur =
      ⟨storedName :: (scanLines output mn rest m2 level).names,
        (scanLines output mn rest m2 level).idx,
        if output then outLine :: (scanLines output mn rest m2 level).out
          else (scanLines output mn rest m2 level).out,
        warns ++ (scanLines output mn rest m2 level).warns⟩ := by
  simp only [scanLines, h]

/-! ## The scan agrees with the header automaton -/

/-- The names, final mapping and warnings of the scan depend only on the
sequence of qualifying headers: non-header lines and sub-threshold headers
leave the state untouched. -/
theorem scanLines_spec (lines : List (List Char)) (m : CHAPTER_INDEXES)
    (cur min_toc_level : Nat) :
    ((scanLines true min_toc_level lines m cur).names,
      (scanLines true min_toc_level lines m cur).idx,
      (scanLines true min_toc_level lines m cur).warns) =
      runHeaders (qualifyingHeaders min_toc_level lines) m cur min_toc_level := by
  induction lines generalizing m cur with
  | nil => simp [scanLines_nil, qualifyingHeaders, runHeaders]
  | cons line rest ih =>
    cases hp : parseHeader line with
    | none =>
      rw [scanLines_pass _ _ _ _ _ _ (scanStep_eq_pass_of_none _ _ _ _ _ hp)]
      have hq : qualifyingHeaders min_toc_level (line :: rest) =
          qualifyingHeaders min_toc_level rest := by
        simp [qualifyingHeaders, List.filterMap_cons, hp]
      rw [hq]
      exact ih m cur
    | some lv =>
      obtain ⟨level, name⟩ := lv
      by_cases hlt : level < min_toc_level
      · rw [scanLines_pass _ _ _ _ _ _
          (scanStep_eq_pass_of_low _ _ _ _ _ _ _ hp hlt)]
        have hq : qualifyingHeaders min_toc_level (line :: rest) =
            qualifyingHeaders min_toc_level rest := by
          simp [qualifyingHeaders, List.filterMap_cons, hp, hlt]
        rw [hq]
        exact ih m cur
      · rw [scanLines_hit _ _ _ _ _ _ _ _ _ _ _
          (scanStep_eq_hit true _ _ _ _ _ _ hp hlt)]
        have hq : qualifyingHeaders min_toc_level (line :: rest) =
            (level, name) :: qualifyingHeaders min_toc_level rest := by
          simp [qualifyingHeaders, List.filterMap_cons, hp, hlt]
        rw [hq]
        simp only [runHeaders, if_true]
        rw [← ih]

/-- Names component of `scanLines_spec`. -/
theorem scanLines_names (lines : List (List Char)) (m : CHAPTER_INDEXES)
    (cur min_toc_level : Nat) :
    (scanLines true min_toc_level lines m cur).names =
      (runHeaders (qualifyingHeaders min_toc_level lines) m cur min_toc_level).1 :=
  congrArg Prod.fst (scanLines_spec lines m cur min_toc_level)

/-- Warnings component of `scanLines_spec`. -/
theorem scanLines_warns (lines : List (List Char)) (m : CHAPTER_INDEXES)
    (cur min_toc_level : Nat) :
    (scanLines true min_toc_level lines m cur).warns =
      (runHeaders (qualifyingHeaders min_toc_level lines) m cur min_toc_level).2.2 :=
  congrArg (fun p => p.2.2) (scanLines_spec lines m cur min_toc_level)

/-- C1: a document whose qualifying headers are at levels `[2,3,3,2,3]`
is numbered `1`, `1.1`, `1.2`, `2`, `2.1`, each dotted index (the `.`-join
of the counters for levels `min_toc_level..L` in ascending order) being
prefixed to the cleaned header text. -/
theorem spec_c1_numbering (lines : List (List Char)) (n1 n2 n3 n4 n5 : List Char)
    (h : qualifyingHeaders 2 lines = [(2, n1), (3, n2), (3, n3), (2, n4), (3, n5)]) :
    (scanLines true 2 lines [(2, 0)] 0).names =
      [['1', ' '] ++ stripNumberPrefix n1,
        ['1', '.', '1', ' '] ++ stripNumberPrefix n2,
        ['1', '.', '2', ' '] ++ stripNumberPrefix n3,
        ['2', ' '] ++ stripNumberPrefix n4,
        ['2', '.', '1', ' '] ++ stripNumberPrefix n5] := by
  rw [scanLines_names, h]
  norm_num [runHeaders, get_new_chapter_name, dottedIndex, sortPairs,
    insertPairSorted, joinWith, natRepr, natReprAux, ciInsert, ciGetD, ciGet,
    ciEraseGt, ciFill, ciFillAux, ciMaxKey, ciKeys]
  decide

/-- Witness for C1 at a concrete document (with an interspersed top-level
header, plain text, and a pre-existing numeric prefix to strip). -/
theorem spec_c1_numbering_witness :
    qualifyingHeaders 2
        ["# Top".data, "## Alpha".data, "text".data, "### 7 Beta".data,
          "### Gamma".data, "## Delta".data, "### Eps".data] =
      [(2, "Alpha".data), (3, "7 Beta".data), (3, "Gamma".data),
        (2, "Delta".data), (3, "Eps".data)] ∧
    (scanLines true 2
        ["# Top".data, "## Alpha".data, "text".data, "### 7 Beta".data,
          "### Gamma".data, "## Delta".data, "### Eps".data] [(2, 0)] 0).names =
      [['1', ' '] ++ stripNumberPrefix "Alpha".data,
        ['1', '.', '1', ' '] ++ stripNumberPrefix "7 Beta".data,
        ['1', '.', '2', ' '] ++ stripNumberPrefix "Gamma".data,
        ['2', ' '] ++ stripNumberPrefix "Delta".data,
        ['2', '.', '1', ' '] ++ stripNumberPrefix "Eps".data] :=
  ⟨by decide,
    spec_c1_numbering _ "Alpha".data "7 Beta".data "Gamma".data "Delta".data
      "Eps".data (by decide)⟩

/-- C4: a level-2 header followed directly by a level-4 header yields the
numbering `1`, `1.0.1` (the missing level 3 synthesized with counter `0`)
and exactly one warning on the diagnostic stream; the scan is a total
function, so no exception is raised. -/
theorem spec_c4_level_skip (lines : List (List Char)) (n1 n2 : List Char)
    (h : qualifyingHeaders 2 lines = [(2, n1), (4, n2)]) :
    (scanLines true 2 lines [(2, 0)] 0).names =
      [['1', ' '] ++ stripNumberPrefix n1,
        ['1', '.', '0', '.', '1', ' '] ++ stripNumberPrefix n2] ∧
    (scanLines true 2 lines [(2, 0)] 0).warns =
      ["WARN: level (4) of chapter \"".data ++ n2 ++
        "\" is larger than expected (3)".data] := by
  constructor
  · rw [scanLines_names, h]
    norm_num [runHeaders, get_new_chapter_name, dottedIndex, sortPairs,
      insertPairSorted, joinWith, natRepr, natReprAux, ciInsert, ciGetD, ciGet,
      ciEraseGt, ciFill, ciFillAux, ciMaxKey, ciKeys]
    decide
  · rw [scanLines_warns, h]
    norm_num [runHeaders, warnMsg, natRepr, natReprAux, ciInsert, ciGetD, ciGet,
      ciEraseGt, ciFill, ciFillAux, ciMaxKey, ciKeys]
    decide

/-- Witness for C4 at a concrete document. -/
theorem spec_c4_level_skip_witness :
    qualifyingHeaders 2 ["## Alpha".data, "#### Deep".data] =
      [(2, "Alpha".data), (4, "Deep".data)] ∧
    ((scanLines true 2 ["## Alpha".data, "#### Deep".data] [(2, 0)] 0).names =
      [['1', ' '] ++ stripNumberPrefix "Alpha".data,
        ['1', '.', '0', '.', '1', ' '] ++ stripNumberPrefix "Deep".data] ∧
    (scanLines true 2 ["## Alpha".data, "#### Deep".data] [(2, 0)] 0).warns =
      ["WARN: level (4) of chapter \"".data ++ "Deep".data ++
        "\" is larger than expected (3)".data]) :=
  ⟨by decide, spec_c4_level_skip _ "Alpha".data "Deep".data (by decide)⟩

/-- C7: a document with no qualifying header produces an empty chapter
list, and the generated TOC block between the markers is just the title
heading line (no bullet items).  The whole transformation is a total
function of the content, so nothing fails. -/
theorem spec_c7_no_headers (lines : List (List Char)) (title : List Char)
    (h : qualifyingHeaders 2 lines = []) :
    (scanLines true 2 lines [(2, 0)] 0).names = [] ∧
    tocContent title [] =
      TOC_BEGIN ++ '\n' :: "## ".data ++ title ++ '\n' :: '\n' :: TOC_END := by
  constructor
  · rw [scanLines_names, h]
    rfl
  · simp [tocContent, joinWith]

/-- Witness for C7 at a concrete document. -/
theorem spec_c7_no_headers_witness :
    qualifyingHeaders 2 ["# only top level".data, "plain text".data, "".data] = [] ∧
    ((scanLines true 2 ["# only top level".data, "plain text".data, "".data]
        [(2, 0)] 0).names = [] ∧
    tocContent TOC_CHAPTER_NAME [] =
      TOC_BEGIN ++ '\n' :: "## ".data ++ TOC_CHAPTER_NAME ++ '\n' :: '\n' :: TOC_END) :=
  ⟨by decide, spec_c7_no_headers _ TOC_CHAPTER_NAME (by decide)⟩

/-- The anchor rule of the spec, as a single pass: drop `.`, `/`, `#`, `-`,
`&`; then turn each space into a hyphen and lowercase. -/
def chapterLinkSpec (chapter_name : List Char) : List Char :=
  (chapter_name.filter (fun c => !(c ∈ ['.', '/', '#', '-', '&']))).map
    (fun c => Char.toLower (if c = ' ' then '-' else c))

/-- C5: the anchor is obtained from the numbered chapter name by removing
`.`, `/`, `#`, `-`, `&`, converting spaces to hyphens and lowercasing
(the chained `str.replace`/`str.lower` calls implement exactly that rule),
and on `"1.2 Getting Started & Setup"` the rendered item has the name as
link text and anchor `12-getting-started--setup`. -/
theorem spec_c5_anchor_slug :
    (∀ chapter_name : List Char, chapterLink chapter_name = chapterLinkSpec chapter_name) ∧
    chapter_name_to_md_item "1.2 Getting Started & Setup".data =
      "  - [1.2 Getting Started & Setup](#12-getting-started--setup)".data := by
  constructor
  · intro chapter_name
    have hpred : ∀ c : Char,
        (decide (c ≠ '&') && (decide (c ≠ '-') && (decide (c ≠ '#') &&
          (decide (c ≠ '/') && decide (c ≠ '.'))))) =
          !(decide (c ∈ ['.', '/', '#', '-', '&'])) := by
      intro c
      by_cases h : c ∈ ['.', '/', '#', '-', '&']
      · fin_cases h <;> decide
      · simp only [List.mem_cons, List.not_mem_nil, or_false, not_or] at h
        simp [h.1, h.2.1, h.2.2.1, h.2.2.2]
    simp only [chapterLink, chapterLinkSpec, List.filter_filter, List.map_map]
    rw [List.filter_congr (fun c _ => hpred c)]
    simp [Function.comp]
  · decide

/-- C3 counterexample.  In the document `["### A", "## B"]` the top-level
call processes `### A` and recurses with `current_chapter_level = 3` from
line index `1`; the claim predicts that this recursive call, whose first
header `## B` has level `2 ≤ 3`, stops and returns no names.  In fact the
recursive call itself processes `## B`: it returns the chapter name `1 B`,
rewrites the line to `## 1 B`, and updates the mapping — and the enclosing
call, which breaks out of its loop right after the recursive call returns,
never re-encounters the header. -/
theorem spec_c3_counterexample :
    (get_chapter_names ["### A".data, "## B".data] 0 none 0 2 true).names =
      ["0.1 A".data, "1 B".data] ∧
    get_chapter_names ["### A".data, "## B".data] 1 (some [(2, 0), (3, 1)]) 3 2 true =
      ⟨["1 B".data], [(2, 1)], ["## 1 B".data], []⟩ ∧
    (["1 B".data] ≠ ([] : List (List Char))) := by
  refine ⟨by decide, by decide, by decide⟩

/-- C3 amended: a (recursive) invocation with `current_chapter_level`
whose first qualifying header has level `≤ max min_toc_level
current_chapter_level` does NOT skip that header: the call itself deletes
the counters of deeper levels, increments the counter at `level`,
contributes the renumbered name and the rewritten line, and continues with
the recursive call from the next line — no caller re-encounters the
header, because every caller breaks out of its scan loop as soon as its
recursive call returns. -/
theorem spec_c3_amended (output : Bool) (min_toc_level cur level : Nat)
    (line : List Char) (rest : List (List Char)) (m m2 : CHAPTER_INDEXES)
    (name : List Char) (hp : parseHeader line = some (level, name))
    (h1 : min_toc_level ≤ level) (h2 : level ≤ max min_toc_level cur)
    (hm2 : m2 = ciInsert
      (if level < max min_toc_level cur then ciEraseGt m level else m) level
      (ciGetD (if level < max min_toc_level cur then ciEraseGt m level else m)
        level 0 + 1)) :
    scanLines output min_toc_level (line :: rest) m cur =
      ⟨(if output then get_new_chapter_name name m2 else name) ::
          (scanLines output min_toc_level rest m2 level).names,
        (scanLines output min_toc_level rest m2 level).idx,
        (if output then
          (List.replicate level '#' ++ ' ' :: get_new_chapter_name name m2) ::
            (scanLines output min_toc_level rest m2 level).out
        else (scanLines output min_toc_level rest m2 level).out),
        (scanLines output min_toc_level rest m2 level).warns⟩ := by
  subst hm2
  have hgt : ¬ level > max min_toc_level cur := Nat.not_lt.mpr h2
  rw [scanLines_hit _ _ _ _ _ _ _ _ _ _ _
    (scanStep_eq_hit output min_toc_level line m (max min_toc_level cur) level
      name hp (Nat.not_lt.mpr h1))]
  by_cases hlt : level < max min_toc_level cur
  · simp [hlt, hgt]
  · simp [hlt, hgt]

/-- Witness for the amended C3, at the recursive invocation reached in the
counterexample document. -/
theorem spec_c3_amended_witness :
    parseHeader "## B".data = some (2, "B".data) ∧
    scanLines true 2 ["## B".data] [(2, 0), (3, 1)] 3 =
      ⟨["1 B".data], [(2, 1)], ["## 1 B".data], []⟩ :=
  ⟨by decide, by
    rw [spec_c3_amended true 2 3 2 "## B".data [] [(2, 0), (3, 1)] [(2, 1)]
      "B".data (by decide) (by decide) (by decide) (by decide)]
    decide⟩

/-- Frame property of the rewrite: a line that is not a qualifying header
is copied unchanged at its original position of the output buffer. -/
theorem scanLines_out_frame (lines : List (List Char)) (m : CHAPTER_INDEXES)
    (cur mn i : Nat) (hi : i < lines.length)
    (h : isQualifying mn (lines.get ⟨i, hi⟩) = false) :
    ((scanLines true mn lines m cur).out)[i]? = some (lines.get ⟨i, hi⟩) := by
  induction lines generalizing m cur i with
  | nil => simp at hi
  | cons line rest ih =>
    cases hp : parseHeader line with
    | none =>
      rw [scanLines_pass _ _ _ _ _ _ (scanStep_eq_pass_of_none _ _ _ _ _ hp)]
      cases i with
      | zero => simp
      | succ j =>
        simp only [if_true, List.getElem?_cons_succ]
        exact ih m cur j (Nat.lt_of_succ_lt_succ hi) h
    | some lv =>
      obtain ⟨level, name⟩ := lv
      by_cases hlt : level < mn
      · rw [scanLines_pass _ _ _ _ _ _
          (scanStep_eq_pass_of_low _ _ _ _ _ _ _ hp hlt)]
        cases i with
        | zero => simp
        | succ j =>
          simp only [if_true, List.getElem?_cons_succ]
          exact ih m cur j (Nat.lt_of_succ_lt_succ hi) h
      · cases i with
        | zero =>
          exfalso
          have : isQualifying mn line = true := by
            simp only [isQualifying, hp, decide_eq_true_eq]
            omega
          rw [show (line :: rest).get ⟨0, hi⟩ = line from rfl] at h
          rw [this] at h
          simp at h
        | succ j =>
          rw [scanLines_hit _ _ _ _ _ _ _ _ _ _ _
            (scanStep_eq_hit true _ _ _ _ _ _ hp hlt)]
          simp only [if_true, List.getElem?_cons_succ]
          exact ih _ _ j (Nat.lt_of_succ_lt_succ hi) h

/-- The chapter names depend only on the qualifying header lines: dropping
every other line from the document does not change the returned names. -/
theorem scanLines_names_filter (lines : List (List Char)) (m : CHAPTER_INDEXES)
    (cur mn : Nat) :
    (scanLines true mn lines m cur).names =
      (scanLines true mn (lines.filter (isQualifying mn)) m cur).names := by
  induction lines generalizing m cur with
  | nil => rfl
  | cons line rest ih =>
    cases hp : parseHeader line with
    | none =>
      have hq : isQualifying mn line = false := by simp [isQualifying, hp]
      rw [List.filter_cons_of_neg (by simp [hq])]
      rw [scanLines_pass _ _ _ _ _ _ (scanStep_eq_pass_of_none _ _ _ _ _ hp)]
      exact ih m cur
    | some lv =>
      obtain ⟨level, name⟩ := lv
      by_cases hlt : level < mn
      · have hq : isQualifying mn line = false := by
          simp only [isQualifying, hp, decide_eq_false_iff_not]
          omega
        rw [List.filter_cons_of_neg (by simp [hq])]
        rw [scanLines_pass _ _ _ _ _ _
          (scanStep_eq_pass_of_low _ _ _ _ _ _ _ hp hlt)]
        exact ih m cur
      · have hq : isQualifying mn line = true := by
          simp only [isQualifying, hp, decide_eq_true_eq]
          omega
        rw [List.filter_cons_of_pos (by simp [hq])]
        rw [scanLines_hit _ _ _ _ _ _ _ _ _ _ _
          (scanStep_eq_hit true _ _ _ _ _ _ hp hlt)]
        rw [scanLines_hit _ _ _ _ _ _ _ _ _ _ _
          (scanStep_eq_hit true _ _ _ _ _ _ hp hlt)]
        simp only [List.cons.injEq, true_and]
        exact ih _ _

/-- C6: a line that is not a header, or is a header below `min_toc_level`,
is copied unchanged in its original position by the rewrite pass, and the
chapter-name list (hence the TOC, which is a function of it) is determined
by the qualifying header lines alone. -/
theorem spec_c6_depth_filtering :
    (∀ (lines : List (List Char)) (m : CHAPTER_INDEXES) (cur min_toc_level i : Nat)
      (hi : i < lines.length),
      isQualifying min_toc_level (lines.get ⟨i, hi⟩) = false →
      ((scanLines true min_toc_level lines m cur).out)[i]? =
        some (lines.get ⟨i, hi⟩)) ∧
    (∀ (lines : List (List Char)) (m : CHAPTER_INDEXES) (cur min_toc_level : Nat),
      (scanLines true min_toc_level lines m cur).names =
        (scanLines true min_toc_level
          (lines.filter (isQualifying min_toc_level)) m cur).names) :=
  ⟨fun lines m cur mn i hi h => scanLines_out_frame lines m cur mn i hi h,
    fun lines m cur mn => scanLines_names_filter lines m cur mn⟩

/-- Witness for C6: the sub-threshold header `# low` is passed through at
its position. -/
theorem spec_c6_depth_filtering_witness :
    isQualifying 2 "# low".data = false ∧
    ((scanLines true 2 ["# low".data, "## A".data] [(2, 0)] 0).out)[0]? =
      some "# low".data :=
  ⟨by decide,
    spec_c6_depth_filtering.1 ["# low".data, "## A".data] [(2, 0)] 0 2 0
      (by decide) (by decide)⟩

/-! ## The contiguity invariant of the chapter-index mapping (C8) -/

/-- Keys of the filtered mapping. -/
theorem ciKeys_eraseGt (m : CHAPTER_INDEXES) (L : Nat) :
    ciKeys (ciEraseGt m L) = (ciKeys m).filter (fun k => k ≤ L) := by
  induction m with
  | nil => rfl
  | cons p rest ih =>
    simp only [ciEraseGt, ciKeys, List.map_cons, List.filter_cons] at ih ⊢
    by_cases h : p.fst ≤ L
    · simp [h, ih]
    · simp [h, ih]

/-- Filtering a contiguous range at `L`. -/
theorem range'_filter_le (k mn L : Nat) :
    (List.range' mn k).filter (fun x => x ≤ L) =
      List.range' mn (min k (L + 1 - mn)) := by
  induction k generalizing mn with
  | zero => simp
  | succ k ih =>
    rw [List.range'_succ, List.filter_cons]
    by_cases h : mn ≤ L
    · rw [if_pos (by simpa using h), ih (mn + 1),
        show min (k + 1) (L + 1 - mn) = (min k (L + 1 - (mn + 1))) + 1 from by omega,
        List.range'_succ]
    · rw [if_neg (by simpa using h), ih (mn + 1),
        show min k (L + 1 - (mn + 1)) = 0 from by omega,
        show min (k + 1) (L + 1 - mn) = 0 from by omega]
      simp [List.range']

/-- Overwriting an existing key of a strictly sorted mapping leaves the key
list unchanged. -/
theorem ciKeys_insert_mem (m : CHAPTER_INDEXES) (k v : Nat)
    (hsort : (ciKeys m).Pairwise (· < ·)) (hk : k ∈ ciKeys m) :
    ciKeys (ciInsert m k v) = ciKeys m := by
  induction m with
  | nil => simp [ciKeys] at hk
  | cons p rest ih =>
    obtain ⟨k', v'⟩ := p
    simp only [ciKeys, List.map_cons] at hsort hk ⊢
    rw [List.pairwise_cons] at hsort
    rcases List.mem_cons.mp hk with hk1 | hk1
    · subst hk1
      simp only [ciInsert, lt_self_iff_false, if_false, if_pos rfl]
      simp [ciKeys]
    · have hlt : k' < k := hsort.1 _ hk1
      simp only [ciInsert, if_neg (by omega : ¬ k < k'), if_neg (by omega : ¬ k = k'),
        List.map_cons, List.cons.injEq, true_and]
      exact ih hsort.2 hk1

/-- Inserting a key greater than every present key appends it. -/
theorem ciKeys_insert_gt (m : CHAPTER_INDEXES) (k v : Nat)
    (h : ∀ x ∈ ciKeys m, x < k) : ciKeys (ciInsert m k v) = ciKeys m ++ [k] := by
  induction m with
  | nil => rfl
  | cons p rest ih =>
    obtain ⟨k', v'⟩ := p
    have hk' : k' < k := h k' (by simp [ciKeys])
    simp only [ciInsert, if_neg (by omega : ¬ k < k'), if_neg (by omega : ¬ k = k'),
      ciKeys, List.map_cons, List.cons_append, List.cons.injEq, true_and]
    exact ih (fun x hx => h x (by simp only [ciKeys, List.map_cons]; exact List.mem_cons_of_mem _ hx))

/-- `max(keys)` of a mapping whose keys are a nonempty contiguous range. -/
theorem foldr_max_range' (c mn : Nat) :
    List.foldr max 0 (List.range' mn (c + 1)) = mn + c := by
  induction c generalizing mn with
  | zero => simp
  | succ c ih =>
    rw [List.range'_succ, List.foldr_cons, ih (mn + 1)]
    omega

/-- `ciMaxKey` of a contiguous range. -/
theorem ciMaxKey_of_range (m : CHAPTER_INDEXES) (mn c : Nat) (hc : 0 < c)
    (h : ciKeys m = List.range' mn c) : ciMaxKey m = mn + c - 1 := by
  rw [ciMaxKey, h, show c = (c - 1) + 1 from by omega, foldr_max_range']
  omega

/-- The filling loop turns keys `range' mn (top+1-mn)` into
`range' mn (L+1-mn)` given enough fuel. -/
theorem ciFillAux_keys (fuel : Nat) : ∀ (m : CHAPTER_INDEXES) (mn top L : Nat),
    ciKeys m = List.range' mn (top + 1 - mn) → mn ≤ top → top ≤ L →
    L - top ≤ fuel →
    ciKeys (ciFillAux fuel m L) = List.range' mn (L + 1 - mn) := by
  induction fuel with
  | zero =>
    intro m mn top L h hmt htL hf
    have hLt : L = top := by omega
    subst hLt
    simpa [ciFillAux] using h
  | succ fuel ih =>
    intro m mn top L h hmt htL hf
    have hmax : ciMaxKey m = top := by
      have := ciMaxKey_of_range m mn (top + 1 - mn) (by omega) h
      omega
    simp only [ciFillAux, hmax]
    by_cases hkL : top ≥ L
    · rw [if_pos hkL]
      have hLt : L = top := by omega
      subst hLt
      exact h
    · rw [if_neg hkL]
      apply ih (ciInsert m (top + 1) 0) mn (top + 1) L ?_ (by omega) (by omega)
        (by omega)
      rw [ciKeys_insert_gt _ _ _ ?_, h]
      · rw [show top + 1 + 1 - mn = (top + 1 - mn) + 1 from by omega,
          List.range'_concat]
        congr 1
        simp only [one_mul, List.cons.injEq, and_true]
        omega
      · intro x hx
        rw [h, List.mem_range'_1] at hx
        omega

/-- The closing step preserves contiguity, cutting the range at `L`. -/
theorem ciEraseGt_keys_range (m : CHAPTER_INDEXES) (mn top L : Nat)
    (h : ciKeys m = List.range' mn (top + 1 - mn)) (hmL : mn ≤ L)
    (hLt : L ≤ top) :
    ciKeys (ciEraseGt m L) = List.range' mn (L + 1 - mn) := by
  rw [ciKeys_eraseGt, h, range'_filter_le]
  congr 1
  omega

/-- The opening step preserves contiguity, extending the range to `L`. -/
theorem ciFill_keys_range (m : CHAPTER_INDEXES) (mn top L : Nat)
    (h : ciKeys m = List.range' mn (top + 1 - mn)) (hmt : mn ≤ top)
    (htL : top ≤ L) :
    ciKeys (ciFill m L) = List.range' mn (L + 1 - mn) :=
  ciFillAux_keys L m mn top L h hmt htL (by omega)

/-- The increment step (overwriting the counter of a present level)
preserves the key range. -/
theorem ciInsert_keys_range (m : CHAPTER_INDEXES) (mn top L v : Nat)
    (h : ciKeys m = List.range' mn (top + 1 - mn)) (hmL : mn ≤ L)
    (hLt : L ≤ top) :
    ciKeys (ciInsert m L v) = ciKeys m := by
  apply ciKeys_insert_mem
  · rw [h]
    exact List.pairwise_lt_range' mn (top + 1 - mn)
  · rw [h, List.mem_range'_1]
    omega

/-- At every point of the scan the keys of the mapping form a contiguous
range `min_toc_level .. top`. -/
theorem scanLines_keys_range (lines : List (List Char)) (m : CHAPTER_INDEXES)
    (cur mn : Nat)
    (h : ciKeys m = List.range' mn (max mn cur + 1 - mn)) :
    ∃ top, mn ≤ top ∧
      ciKeys (scanLines true mn lines m cur).idx =
        List.range' mn (top + 1 - mn) := by
  induction lines generalizing m cur with
  | nil =>
    exact ⟨max mn cur, Nat.le_max_left mn cur, by simpa [scanLines_nil] using h⟩
  | cons line rest ih =>
    cases hp : parseHeader line with
    | none =>
      rw [scanLines_pass _ _ _ _ _ _ (scanStep_eq_pass_of_none _ _ _ _ _ hp)]
      exact ih m cur h
    | some lv =>
      obtain ⟨level, name⟩ := lv
      by_cases hlt : level < mn
      · rw [scanLines_pass _ _ _ _ _ _
          (scanStep_eq_pass_of_low _ _ _ _ _ _ _ hp hlt)]
        exact ih m cur h
      · rw [scanLines_hit _ _ _ _ _ _ _ _ _ _ _
          (scanStep_eq_hit true _ _ _ _ _ _ hp hlt)]
        have hml : mn ≤ level := by omega
        have hcur : mn ≤ max mn cur := Nat.le_max_left mn cur
        have hm1 : ciKeys
            (if level < max mn cur then ciEraseGt m level
              else if level > max mn cur then ciFill m level else m) =
            List.range' mn (level + 1 - mn) := by
          by_cases h1 : level < max mn cur
          · rw [if_pos h1]
            exact ciEraseGt_keys_range m mn (max mn cur) level h hml (by omega)
          · rw [if_neg h1]
            by_cases h2 : level > max mn cur
            · rw [if_pos h2]
              exact ciFill_keys_range m mn (max mn cur) level h hcur (by omega)
            · rw [if_neg h2]
              rw [h]
              congr 1
              omega
        have hm2 : ciKeys (ciInsert
            (if level < max mn cur then ciEraseGt m level
              else if level > max mn cur then ciFill m level else m) level
            (ciGetD
              (if level < max mn cur then ciEraseGt m level
                else if level > max mn cur then ciFill m level else m)
              level 0 + 1)) = List.range' mn (level + 1 - mn) := by
          rw [ciInsert_keys_range _ mn level level _ hm1 hml (le_refl level), hm1]
        apply ih
        rw [hm2]
        congr 1
        omega

/-- C8: the keys of the chapter-index mapping always form a contiguous
range from `min_toc_level` to the deepest open level.  The first three
conjuncts are the preservation by the closing (delete keys `> L`), opening
(fill intermediate levels with `0`) and increment steps; the last is the
invariant along the whole scan, starting from any state satisfying it (in
particular the initial `{min_toc_level: 0}`). -/
theorem spec_c8_contiguous_keys :
    (∀ (m : CHAPTER_INDEXES) (mn top L : Nat),
      ciKeys m = List.range' mn (top + 1 - mn) → mn ≤ L → L ≤ top →
      ciKeys (ciEraseGt m L) = List.range' mn (L + 1 - mn)) ∧
    (∀ (m : CHAPTER_INDEXES) (mn top L : Nat),
      ciKeys m = List.range' mn (top + 1 - mn) → mn ≤ top → top ≤ L →
      ciKeys (ciFill m L) = List.range' mn (L + 1 - mn)) ∧
    (∀ (m : CHAPTER_INDEXES) (mn top L v : Nat),
      ciKeys m = List.range' mn (top + 1 - mn) → mn ≤ L → L ≤ top →
      ciKeys (ciInsert m L v) = ciKeys m) ∧
    (∀ (lines : List (List Char)) (m : CHAPTER_INDEXES) (cur mn : Nat),
      ciKeys m = List.range' mn (max mn cur + 1 - mn) →
      ∃ top, mn ≤ top ∧
        ciKeys (scanLines true mn lines m cur).idx =
          List.range' mn (top + 1 - mn)) :=
  ⟨ciEraseGt_keys_range, ciFill_keys_range, ciInsert_keys_range,
    scanLines_keys_range⟩

/-- Witness for C8, running the scan over a concrete document from the
initial state `{2: 0}`. -/
theorem spec_c8_contiguous_keys_witness :
    ciKeys [(2, 0)] = List.range' 2 (max 2 0 + 1 - 2) ∧
    ∃ top, 2 ≤ top ∧
      ciKeys (scanLines true 2 ["## A".data, "### B".data] [(2, 0)] 0).idx =
        List.range' 2 (top + 1 - 2) :=
  ⟨by decide,
    spec_c8_contiguous_keys.2.2.2 ["## A".data, "### B".data] [(2, 0)] 0 2
      (by decide)⟩

/-! ## Termination (C10) -/

/-- `max(keys)` after an assignment. -/
theorem ciMaxKey_insert (m : CHAPTER_INDEXES) (k v : Nat) :
    ciMaxKey (ciInsert m k v) = max k (ciMaxKey m) := by
  induction m with
  | nil => simp [ciInsert, ciMaxKey, ciKeys]
  | cons p rest ih =>
    obtain ⟨k', v'⟩ := p
    by_cases h1 : k < k'
    · have e : ciInsert ((k', v') :: rest) k v = (k, v) :: (k', v') :: rest := by
        simp only [ciInsert, if_pos h1]
      rw [e]
      simp only [ciMaxKey, ciKeys, List.map_cons, List.foldr_cons]
    · by_cases h2 : k = k'
      · have e : ciInsert ((k', v') :: rest) k v = (k, v) :: rest := by
          simp only [ciInsert, if_neg h1, if_pos h2]
        rw [e]
        subst h2
        simp only [ciMaxKey, ciKeys, List.map_cons, List.foldr_cons]
        omega
      · have e : ciInsert ((k', v') :: rest) k v = (k', v') :: ciInsert rest k v := by
          simp only [ciInsert, if_neg h1, if_neg h2]
        rw [e]
        simp only [ciMaxKey, ciKeys, List.map_cons, List.foldr_cons]
        have h3 := ih
        simp only [ciMaxKey, ciKeys] at h3
        rw [h3]
        omega

/-- `get_chapter_names` with explicit fuel: the recursion of the Python
function, one unit of fuel per line index.  Every recursive call — both the
loop step over a passed line and the descent after a processed header —
resumes at line index `start_line_index + 1` (the Python call resumes at
`start_line_index + i + 1` after `i` loop steps), so the index strictly
increases and `lines.length - start_line_index` bounds the recursion
depth. -/
def get_chapter_names_fuel :
    Nat → Bool → Nat → List (List Char) → Nat → CHAPTER_INDEXES → Nat →
      Option ScanResult
  | 0, _, _, _, _, _, _ => none
  | fuel + 1, output, mn, lines, start, m, cur =>
    match lines.drop start with
    | [] => some ⟨[], m, [], []⟩
    | line :: _ =>
      match scanStep output mn line m (max mn cur) with
      | .pass =>
        match get_chapter_names_fuel fuel output mn lines (start + 1) m cur with
        | none => none
        | some r =>
          some ⟨r.names, r.idx, if output then line :: r.out else r.out, r.warns⟩
      | .hit storedName m2 level outLine warns =>
        match get_chapter_names_fuel fuel output mn lines (start + 1) m2 level with
        | none => none
        | some r =>
          some ⟨storedName :: r.names, r.idx,
            if output then outLine :: r.out else r.out, warns ++ r.warns⟩

/-- Unfolding the fuelled recursion past the end of the lines. -/
theorem get_chapter_names_fuel_nil (fuel : Nat) (output : Bool) (mn : Nat)
    (lines : List (List Char)) (start : Nat) (m : CHAPTER_INDEXES) (cur : Nat)
    (h : lines.drop start = []) :
    get_chapter_names_fuel (fuel + 1) output mn lines start m cur =
      some ⟨[], m, [], []⟩ := by
  simp only [get_chapter_names_fuel, h]

/-- Unfolding the fuelled recursion over a passed line. -/
theorem get_chapter_names_fuel_pass (fuel : Nat) (output : Bool) (mn : Nat)
    (lines : List (List Char)) (start : Nat) (m : CHAPTER_INDEXES) (cur : Nat)
    (line : List Char) (t : List (List Char)) (h : lines.drop start = line :: t)
    (hstep : scanStep output mn line m (max mn cur) = .pass) :
    get_chapter_names_fuel (fuel + 1) output mn lines start m cur =
      match get_chapter_names_fuel fuel output mn lines (start + 1) m cur with
      | none => none
      | some r =>
        some ⟨r.names, r.idx, if output then line :: r.out else r.out, r.warns⟩ := by
  simp only [get_chapter_names_fuel, h, hstep]

/-- Unfolding the fuelled recursion over a processed header. -/
theorem get_chapter_names_fuel_hit (fuel : Nat) (output : Bool) (mn : Nat)
    (lines : List (List Char)) (start : Nat) (m : CHAPTER_INDEXES) (cur : Nat)
    (line : List Char) (t : List (List Char)) (storedName : List Char)
    (m2 : CHAPTER_INDEXES) (level : Nat) (outLine : List Char)
    (warns : List (List Char)) (h : lines.drop start = line :: t)
    (hstep : scanStep output mn line m (max mn cur) =
      .hit storedName m2 level outLine warns) :
    get_chapter_names_fuel (fuel + 1) output mn lines start m cur =
      match get_chapter_names_fuel fuel output mn lines (start + 1) m2 level with
      | none => none
      | some r =>
        some ⟨storedName :: r.names, r.idx,
          if output then outLine :: r.out else r.out, warns ++ r.warns⟩ := by
  simp only [get_chapter_names_fuel, h, hstep]

/-- C10: termination.  First conjunct: `lines.length - start_line_index`
bounds the recursion depth — with that much fuel the fuelled recursion
never runs out and computes `get_chapter_names`.  Second conjunct: each
iteration of the intermediate-level-filling loop strictly increases
`max(keys)` by one (towards `level`, which bounds it by the loop guard). -/
theorem spec_c10_termination :
    (∀ (fuel : Nat) (output : Bool) (mn : Nat) (lines : List (List Char))
      (start : Nat) (m : CHAPTER_INDEXES) (cur : Nat),
      lines.length ≤ start + fuel →
      get_chapter_names_fuel (fuel + 1) output mn lines start m cur =
        some (get_chapter_names lines start (some m) cur mn output)) ∧
    (∀ (m : CHAPTER_INDEXES) (level : Nat), ciMaxKey m < level →
      ciMaxKey (ciInsert m (ciMaxKey m + 1) 0) = ciMaxKey m + 1) := by
  constructor
  · intro fuel
    induction fuel with
    | zero =>
      intro output mn lines start m cur hlen
      have hdrop : lines.drop start = [] :=
        List.drop_eq_nil_of_le (by omega)
      rw [get_chapter_names_fuel_nil _ _ _ _ _ _ _ hdrop]
      simp only [get_chapter_names, hdrop, scanLines_nil, Option.getD_some]
    | succ fuel ih =>
      intro output mn lines start m cur hlen
      cases hdrop : lines.drop start with
      | nil =>
        rw [get_chapter_names_fuel_nil _ _ _ _ _ _ _ hdrop]
        simp only [get_chapter_names, hdrop, scanLines_nil, Option.getD_some]
      | cons line t =>
        have ht : lines.drop (start + 1) = t := by
          have h1 : lines.drop (start + 1) = (lines.drop start).drop 1 := by
            rw [List.drop_drop]
          rw [h1, hdrop]
          rfl
        have hlen' : lines.length ≤ start + 1 + fuel := by omega
        cases hstep : scanStep output mn line m (max mn cur) with
        | pass =>
          rw [get_chapter_names_fuel_pass _ _ _ _ _ _ _ _ _ hdrop hstep,
            ih output mn lines (start + 1) m cur hlen']
          simp only [get_chapter_names, ht, hdrop, Option.getD_some]
          rw [scanLines_pass _ _ _ _ _ _ hstep]
        | hit storedName m2 level outLine warns =>
          rw [get_chapter_names_fuel_hit _ _ _ _ _ _ _ _ _ _ _ _ _ _ hdrop hstep,
            ih output mn lines (start + 1) m2 level hlen']
          simp only [get_chapter_names, ht, hdrop, Option.getD_some]
          rw [scanLines_hit _ _ _ _ _ _ _ _ _ _ _ hstep]
  · intro m level _
    rw [ciMaxKey_insert]
    omega

/-- Witness for C10 on a concrete scan and a concrete fill step. -/
theorem spec_c10_termination_witness :
    (["## A".data, "text".data].length ≤ 0 + 2 ∧
      get_chapter_names_fuel 3 true 2 ["## A".data, "text".data] 0 [(2, 0)] 0 =
        some (get_chapter_names ["## A".data, "text".data] 0 (some [(2, 0)]) 0 2 true)) ∧
    (ciMaxKey [(2, 1)] < 4 ∧
      ciMaxKey (ciInsert [(2, 1)] (ciMaxKey [(2, 1)] + 1) 0) = ciMaxKey [(2, 1)] + 1) :=
  ⟨⟨by decide, spec_c10_termination.1 2 true 2 ["## A".data, "text".data] 0
      [(2, 0)] 0 (by decide)⟩,
    ⟨by decide, spec_c10_termination.2 [(2, 1)] 4 (by decide)⟩⟩

/-! ## Substring and line-splitting toolbox -/

/-- A pattern is a prefix of itself followed by anything. -/
theorem isPrefixOf_append_self (pat z : List Char) :
    pat.isPrefixOf (pat ++ z) = true := by
  rw [List.isPrefixOf_iff_prefix]
  exact List.prefix_append _ _

/-- A pattern whose head differs from the head of the text does not match
there. -/
theorem isPrefixOf_ne_head (c0 : Char) (p : List Char) (hd : Char)
    (z : List Char) (h : hd ≠ c0) :
    (c0 :: p).isPrefixOf (hd :: z) = false := by
  simp only [List.isPrefixOf, Bool.and_eq_false_iff]
  left
  simp [beq_iff_eq]
  exact fun e => h e.symm

/-- Without an occurrence there is nothing to split at. -/
theorem splitOnFirst_eq_none (pat s : List Char)
    (h : containsSub pat s = false) : splitOnFirst pat s = none := by
  induction s with
  | nil =>
    simp only [containsSub] at h
    simp [splitOnFirst, h]
  | cons c t ih =>
    simp only [containsSub, Bool.or_eq_false_iff] at h
    simp only [splitOnFirst, h.1, Bool.false_eq_true, if_false, ih h.2]

/-- Collapsing is the identity when no `TOC_BEGIN` marker occurs. -/
theorem collapseToc_of_no_begin (content : List Char)
    (h : containsSub TOC_BEGIN content = false) :
    collapseToc content = content := by
  simp only [collapseToc, splitOnFirst_eq_none _ _ h]

/-- A non-qualifying line is passed over by the scan step. -/
theorem scanStep_eq_pass_of_not_qual (output : Bool) (mn : Nat)
    (line : List Char) (m : CHAPTER_INDEXES) (cur : Nat)
    (h : isQualifying mn line = false) :
    scanStep output mn line m cur = .pass := by
  cases hp : parseHeader line with
  | none => exact scanStep_eq_pass_of_none _ _ _ _ _ hp
  | some lv =>
    obtain ⟨level, name⟩ := lv
    have hlt : level < mn := by
      simp only [isQualifying, hp, decide_eq_false_iff_not] at h
      omega
    exact scanStep_eq_pass_of_low _ _ _ _ _ _ _ hp hlt

/-- A document with no qualifying line is passed through whole: no names,
no warnings, untouched state and output. -/
theorem scanLines_all_pass (lines : List (List Char)) (m : CHAPTER_INDEXES)
    (cur mn : Nat) (h : ∀ l ∈ lines, isQualifying mn l = false) :
    scanLines true mn lines m cur = ⟨[], m, lines, []⟩ := by
  induction lines generalizing m cur with
  | nil => rfl
  | cons line rest ih =>
    rw [scanLines_pass _ _ _ _ _ _
      (scanStep_eq_pass_of_not_qual _ _ _ _ _ (h line (by simp)))]
    rw [ih m cur (fun l hl => h l (by simp [hl]))]
    rfl

/-- Splitting a newline-free line. -/
theorem splitLines_of_no_newline (l : List Char) (h : '\n' ∉ l) :
    splitLines l = [l] := by
  induction l with
  | nil => rfl
  | cons c t ih =>
    have hc : ¬ c = '\n' := fun e => h (by simp [e])
    simp only [splitLines, if_neg hc,
      ih (fun hm => h (List.mem_cons_of_mem _ hm))]

/-- Splitting peels off a newline-free first line. -/
theorem splitLines_append_newline (x r : List Char) (h : '\n' ∉ x) :
    splitLines (x ++ '\n' :: r) = x :: splitLines r := by
  induction x with
  | nil => simp [splitLines]
  | cons c t ih =>
    have hc : ¬ c = '\n' := fun e => h (by simp [e])
    simp only [List.cons_append, splitLines, if_neg hc, List.append_eq,
      ih (fun hm => h (List.mem_cons_of_mem _ hm))]

/-- `joinWith` over a cons with nonempty tail. -/
theorem joinWith_cons (sep : List Char) (x : List Char)
    (rest : List (List Char)) (h : rest ≠ []) :
    joinWith sep (x :: rest) = x ++ sep ++ joinWith sep rest := by
  cases rest with
  | nil => exact absurd rfl h
  | cons y ys => rfl

/-- `split('\n')` undoes `'\n'.join` on newline-free lines. -/
theorem splitLines_joinWith (lines : List (List Char)) (hne : lines ≠ [])
    (h : ∀ l ∈ lines, '\n' ∉ l) :
    splitLines (joinWith ['\n'] lines) = lines := by
  induction lines with
  | nil => exact absurd rfl hne
  | cons x rest ih =>
    cases rest with
    | nil => exact splitLines_of_no_newline x (h x (by simp))
    | cons y ys =>
      rw [joinWith_cons _ _ _ (by simp), List.append_assoc]
      rw [show (['\n'] ++ joinWith ['\n'] (y :: ys)) =
        '\n' :: joinWith ['\n'] (y :: ys) from rfl]
      rw [splitLines_append_newline x _ (h x (by simp))]
      rw [ih (by simp) (fun l hl => h l (by simp [hl]))]

/-- Characters of a join come from the separator or from some element. -/
theorem mem_joinWith (sep : List Char) (ls : List (List Char)) (c : Char)
    (h : c ∈ joinWith sep ls) : c ∈ sep ∨ ∃ l ∈ ls, c ∈ l := by
  induction ls with
  | nil => simp [joinWith] at h
  | cons x rest ih =>
    cases rest with
    | nil => exact Or.inr ⟨x, by simp, h⟩
    | cons y ys =>
      rw [joinWith_cons _ _ _ (by simp)] at h
      simp only [List.mem_append] at h
      rcases h with (h | h) | h
      · exact Or.inr ⟨x, by simp, h⟩
      · exact Or.inl h
      · rcases ih h with h | ⟨l, hl, hc⟩
        · exact Or.inl h
        · exact Or.inr ⟨l, List.mem_cons_of_mem _ hl, hc⟩

/-- If no character of `s` equals the head of the pattern, the pattern does
not occur. -/
theorem containsSub_eq_false_of_head_notMem (c0 : Char) (p s : List Char)
    (h : ∀ c ∈ s, c ≠ c0) : containsSub (c0 :: p) s = false := by
  induction s with
  | nil => rfl
  | cons c t ih =>
    simp only [containsSub, Bool.or_eq_false_iff]
    exact ⟨isPrefixOf_ne_head c0 p c t (h c (by simp)),
      ih (fun x hx => h x (by simp [hx]))⟩

/-! ## Unfolding equations for `replaceFirstN` -/

/-- A positive skip count just consumes characters: it equals restarting
after dropping them. -/
theorem replaceFirstNAux_skip (pat repl : List Char) (n : Nat) :
    ∀ (k : Nat) (t : List Char),
      replaceFirstNAux pat repl n k t = replaceFirstNAux pat repl n 0 (t.drop k) := by
  intro k
  induction k with
  | zero => intro t; rw [List.drop_zero]
  | succ k ih =>
    intro t
    cases t with
    | nil => rfl
    | cons c t' =>
      show replaceFirstNAux pat repl n k t' = _
      rw [ih t', List.drop_succ_cons]

/-- With no replacements left the scanner copies the text. -/
theorem replaceFirstNAux_zero (pat repl : List Char) :
    ∀ s : List Char, replaceFirstNAux pat repl 0 0 s = s := by
  intro s
  induction s with
  | nil => rfl
  | cons c t ih =>
    show (if (0 ≠ 0 : Prop) && pat.isPrefixOf (c :: t) then _ else
      c :: replaceFirstNAux pat repl 0 0 t) = c :: t
    rw [ih]
    simp

/-- Zero replacements change nothing. -/
theorem replaceFirstN_zero (pat repl s : List Char) :
    replaceFirstN 0 pat repl s = s := by
  rw [replaceFirstN]
  by_cases he : pat.isEmpty
  · simp [he]
  · simp [he, replaceFirstNAux_zero]

/-- Nothing to replace in the empty text. -/
theorem replaceFirstN_nil (n : Nat) (pat repl : List Char) :
    replaceFirstN n pat repl [] = [] := by
  rw [replaceFirstN]
  by_cases he : pat.isEmpty <;> simp [he, replaceFirstNAux]

/-- A match at the current position is replaced, and scanning continues
after the matched text (the replacement is not rescanned). -/
theorem replaceFirstN_match (n : Nat) (pat repl : List Char) (c : Char)
    (t : List Char) (hne : pat.isEmpty = false)
    (hpre : pat.isPrefixOf (c :: t) = true) :
    replaceFirstN (n + 1) pat repl (c :: t) =
      repl ++ replaceFirstN n pat repl ((c :: t).drop pat.length) := by
  obtain ⟨p0, pt, hp⟩ : ∃ p0 pt, pat = p0 :: pt := by
    cases pat with
    | nil => simp at hne
    | cons p0 pt => exact ⟨p0, pt, rfl⟩
  simp only [replaceFirstN, hne, Bool.false_eq_true, if_false]
  show (if ((n + 1 ≠ 0 : Prop) && pat.isPrefixOf (c :: t)) then
      repl ++ replaceFirstNAux pat repl (n + 1 - 1) (pat.length - 1) t
    else _) = _
  rw [hpre, replaceFirstNAux_skip]
  simp [replaceFirstN, hne, hp, Nat.add_sub_cancel, List.drop_succ_cons]

/-- No match at the current position: keep the character and move on. -/
theorem replaceFirstN_nomatch (n : Nat) (pat repl : List Char) (c : Char)
    (t : List Char) (hne : pat.isEmpty = false)
    (hpre : pat.isPrefixOf (c :: t) = false) :
    replaceFirstN (n + 1) pat repl (c :: t) =
      c :: replaceFirstN (n + 1) pat repl t := by
  simp only [replaceFirstN, hne, Bool.false_eq_true, if_false]
  show (if ((n + 1 ≠ 0 : Prop) && pat.isPrefixOf (c :: t)) then _
    else c :: replaceFirstNAux pat repl (n + 1) 0 t) = _
  rw [hpre]
  simp

/-- Scanning steps over a leading newline, which cannot start a `[TOC]`
match. -/
theorem replaceFirstN_tocMark_newline (n : Nat) (repl j : List Char) :
    replaceFirstN n TOC_MARK repl ('\n' :: j) =
      '\n' :: replaceFirstN n TOC_MARK repl j := by
  cases n with
  | zero => rw [replaceFirstN_zero, replaceFirstN_zero]
  | succ n =>
    refine replaceFirstN_nomatch n TOC_MARK repl '\n' j rfl ?_
    rw [show TOC_MARK = '[' :: "TOC]".data from rfl]
    exact isPrefixOf_ne_head '[' "TOC]".data '\n' j (by decide)

/-- Replacing the first `n` placeholders in a document made of `k`
newline-separated `[TOC]` lines: the first `min n k` become the
replacement, the remaining `k - n` stay literal. -/
theorem replaceFirstN_replicate_tocMark (repl : List Char) (n k : Nat)
    (hk : 1 ≤ k) :
    replaceFirstN n TOC_MARK repl (joinWith ['\n'] (List.replicate k TOC_MARK)) =
      joinWith ['\n']
        (List.replicate (min n k) repl ++ List.replicate (k - n) TOC_MARK) := by
  induction k generalizing n with
  | zero => omega
  | succ k ih =>
    cases n with
    | zero =>
      rw [replaceFirstN_zero]
      simp
    | succ n =>
      cases Nat.eq_zero_or_pos k with
      | inl h0 =>
        subst h0
        rw [show joinWith ['\n'] (List.replicate 1 TOC_MARK) = TOC_MARK from rfl,
          show TOC_MARK = '[' :: "TOC]".data from rfl,
          replaceFirstN_match n ('[' :: "TOC]".data) repl '[' "TOC]".data (by rfl)
            (by rw [show ('[' :: "TOC]".data : List Char) =
                  ('[' :: "TOC]".data) ++ [] from by simp]
                exact isPrefixOf_append_self _ _)]
        rw [show (('[' :: "TOC]".data) : List Char).drop ('[' :: "TOC]".data).length
            = [] from rfl]
        rw [replaceFirstN_nil]
        rw [show min (n + 1) 1 = 1 from by omega, show 1 - (n + 1) = 0 from by omega,
          List.append_nil]
        rfl
      | inr hpos =>
        have hrep : List.replicate (k + 1) TOC_MARK =
            TOC_MARK :: List.replicate k TOC_MARK := rfl
        have hrepne : List.replicate k TOC_MARK ≠ [] := by
          intro e
          have := congrArg List.length e
          simp at this
          omega
        rw [hrep, joinWith_cons _ _ _ hrepne, List.append_assoc]
        rw [show (['\n'] ++ joinWith ['\n'] (List.replicate k TOC_MARK)) =
          '\n' :: joinWith ['\n'] (List.replicate k TOC_MARK) from rfl]
        rw [show TOC_MARK ++ '\n' :: joinWith ['\n'] (List.replicate k TOC_MARK) =
          '[' :: ("TOC]".data ++ '\n' :: joinWith ['\n'] (List.replicate k TOC_MARK))
          from rfl]
        rw [replaceFirstN_match n TOC_MARK repl '['
          ("TOC]".data ++ '\n' :: joinWith ['\n'] (List.replicate k TOC_MARK))
          (by rfl)
          (by rw [show '[' :: ("TOC]".data ++ '\n' ::
                joinWith ['\n'] (List.replicate k TOC_MARK)) =
              TOC_MARK ++ '\n' :: joinWith ['\n'] (List.replicate k TOC_MARK) from rfl]
              exact isPrefixOf_append_self _ _)]
        rw [show ('[' :: ("TOC]".data ++ '\n' ::
            joinWith ['\n'] (List.replicate k TOC_MARK))).drop TOC_MARK.length =
          '\n' :: joinWith ['\n'] (List.replicate k TOC_MARK) from
          (by rw [show ('[' :: ("TOC]".data ++ '\n' ::
                joinWith ['\n'] (List.replicate k TOC_MARK))) =
              TOC_MARK ++ '\n' :: joinWith ['\n'] (List.replicate k TOC_MARK) from rfl]
              exact List.drop_left _ _)]
        rw [replaceFirstN_tocMark_newline, ih n hpos]
        have hmin : min (n + 1) (k + 1) = min n k + 1 := by omega
        have hsub : k + 1 - (n + 1) = k - n := by omega
        rw [hmin, hsub]
        have htail : List.replicate (min n k) repl ++
            List.replicate (k - n) TOC_MARK ≠ [] := by
          intro e
          have := congrArg List.length e
          simp at this
          omega
        rw [show List.replicate (min n k + 1) repl =
          repl :: List.replicate (min n k) repl from rfl]
        rw [List.cons_append, joinWith_cons _ _ _ htail, List.append_assoc]
        rfl

/-- C9: the splice passes `re.MULTILINE` (integer value 8) as the `count`
argument of `re.sub`, so at most the first 8 placeholder occurrences are
substituted; in a document of `k > 8` newline-separated `[TOC]` lines the
occurrences after the eighth remain as literal `[TOC]` text. -/
theorem spec_c9_count_eight :
    (∀ toc_content new_content : List Char,
      spliceToc toc_content new_content =
        replaceFirstN 8 TOC_MARK toc_content new_content) ∧
    (∀ k : Nat, 8 < k →
      generate_content (joinWith ['\n'] (List.replicate k TOC_MARK)) =
        joinWith ['\n']
          (List.replicate 8 (tocContent TOC_CHAPTER_NAME []) ++
            List.replicate (k - 8) TOC_MARK)) := by
  constructor
  · intro toc_content new_content
    rfl
  · intro k hk
    have hnoB : containsSub TOC_BEGIN
        (joinWith ['\n'] (List.replicate k TOC_MARK)) = false := by
      rw [show TOC_BEGIN = '$' :: "%TOC_BEGIN$".data from rfl]
      apply containsSub_eq_false_of_head_notMem
      intro c hc
      rcases mem_joinWith _ _ _ hc with h | ⟨l, hl, hcl⟩
      · simp only [List.mem_singleton] at h
        subst h
        decide
      · rw [(List.mem_replicate.mp hl).2] at hcl
        fin_cases hcl <;> decide
    have hrepne : List.replicate k TOC_MARK ≠ [] := by
      intro e
      have := congrArg List.length e
      simp at this
      omega
    have hsplit : splitLines (joinWith ['\n'] (List.replicate k TOC_MARK)) =
        List.replicate k TOC_MARK := by
      apply splitLines_joinWith _ hrepne
      intro l hl
      rw [(List.mem_replicate.mp hl).2]
      decide
    have hscan : scanLines true 2 (List.replicate k TOC_MARK) [(2, 0)] 0 =
        ⟨[], [(2, 0)], List.replicate k TOC_MARK, []⟩ := by
      apply scanLines_all_pass
      intro l hl
      rw [(List.mem_replicate.mp hl).2]
      decide
    show spliceToc _ _ = _
    rw [show collapseToc (joinWith ['\n'] (List.replicate k TOC_MARK)) =
      joinWith ['\n'] (List.replicate k TOC_MARK) from
      collapseToc_of_no_begin _ hnoB, hsplit, hscan]
    show replaceFirstN 8 TOC_MARK _ _ = _
    rw [replaceFirstN_replicate_tocMark _ 8 k (by omega),
      show min 8 k = 8 from by omega]

/-- Witness for C9 with nine placeholders: the ninth survives. -/
theorem spec_c9_count_eight_witness :
    8 < 9 ∧
    generate_content (joinWith ['\n'] (List.replicate 9 TOC_MARK)) =
      joinWith ['\n']
        (List.replicate 8 (tocContent TOC_CHAPTER_NAME []) ++
          List.replicate (9 - 8) TOC_MARK) :=
  ⟨by decide, spec_c9_count_eight.2 9 (by decide)⟩

/-! ## Decomposing header recognition and prefix stripping (towards C2) -/

/-- What `dropWhile` leaves starts with a failing character (or nothing). -/
theorem takeWhile_dropWhile_nil (p : Char → Bool) (l : List Char) :
    (l.dropWhile p).takeWhile p = [] := by
  induction l with
  | nil => rfl
  | cons c t ih =>
    by_cases h : p c
    · simpa [List.dropWhile_cons, h] using ih
    · simp [List.dropWhile_cons, h, List.takeWhile_cons, h]

/-- If nothing is taken, nothing is dropped. -/
theorem dropWhile_of_takeWhile_nil (p : Char → Bool) (l : List Char)
    (h : l.takeWhile p = []) : l.dropWhile p = l := by
  cases l with
  | nil => rfl
  | cons c t =>
    rw [List.takeWhile_cons] at h
    by_cases hc : p c
    · simp [hc] at h
    · simp [List.dropWhile_cons, hc]

/-- `takeWhile` passes over a block of satisfying characters. -/
theorem takeWhile_append_all (p : Char → Bool) (a b : List Char)
    (h : ∀ c ∈ a, p c = true) :
    (a ++ b).takeWhile p = a ++ b.takeWhile p := by
  induction a with
  | nil => rfl
  | cons c t ih =>
    rw [List.cons_append, List.takeWhile_cons, h c (by simp), if_pos rfl,
      ih (fun x hx => h x (by simp [hx]))]
    rfl

/-- `dropWhile` passes over a block of satisfying characters. -/
theorem dropWhile_append_all (p : Char → Bool) (a b : List Char)
    (h : ∀ c ∈ a, p c = true) :
    (a ++ b).dropWhile p = b.dropWhile p := by
  induction a with
  | nil => rfl
  | cons c t ih =>
    rw [List.cons_append, List.dropWhile_cons, if_pos (h c (by simp)),
      ih (fun x hx => h x (by simp [hx]))]

/-- Rebuilding a rewritten header line parses back to the same level and
name, provided the name does not start with whitespace. -/
theorem parseHeader_construct (L : Nat) (x : List Char) (hL : 0 < L)
    (hx : x.takeWhile pySpace = []) :
    parseHeader (List.replicate L '#' ++ ' ' :: x) = some (L, x) := by
  have hall : ∀ c ∈ List.replicate L '#', (fun c => decide (c = '#')) c = true := by
    intro c hc
    simp [List.eq_of_mem_replicate hc]
  have htw : (List.replicate L '#' ++ ' ' :: x).takeWhile (fun c => c = '#') =
      List.replicate L '#' := by
    rw [takeWhile_append_all _ _ _ hall, List.takeWhile_cons]
    simp
  have hdw : (List.replicate L '#' ++ ' ' :: x).dropWhile (fun c => c = '#') =
      ' ' :: x := by
    rw [dropWhile_append_all _ _ _ hall, List.dropWhile_cons]
    simp
  simp only [parseHeader, htw, hdw]
  rw [show (' ' :: x).takeWhile pySpace = ' ' :: x.takeWhile pySpace from by
    rw [List.takeWhile_cons]; simp [pySpace]]
  rw [hx, show (' ' :: x).dropWhile pySpace = x.dropWhile pySpace from by
    rw [List.dropWhile_cons]; simp [pySpace]]
  rw [dropWhile_of_takeWhile_nil _ _ hx]
  simp [List.isEmpty_iff, List.length_replicate]
  omega

/-- A parsed header line decomposes as hashes, whitespace, name. -/
theorem parseHeader_some_decomp (line : List Char) (l : Nat) (name : List Char)
    (h : parseHeader line = some (l, name)) :
    0 < l ∧ name.takeWhile pySpace = [] ∧
      ∃ w, line = List.replicate l '#' ++ w ++ name ∧ w ≠ [] ∧
        ∀ c ∈ w, pySpace c = true := by
  simp only [parseHeader] at h
  by_cases h1 : (line.takeWhile (fun c => c = '#')).isEmpty
  · simp [h1] at h
  · simp only [h1, Bool.false_eq_true, if_false] at h
    by_cases h2 : ((line.dropWhile (fun c => c = '#')).takeWhile pySpace).isEmpty
    · simp [h2] at h
    · simp only [h2, Bool.false_eq_true, if_false, Option.some.injEq,
        Prod.mk.injEq] at h
      obtain ⟨hl, hn⟩ := h
      have hpos : 0 < l := by
        rw [← hl]
        rw [List.isEmpty_iff] at h1
        cases he : line.takeWhile (fun c => c = '#') with
        | nil => exact absurd he h1
        | cons a t => simp [he]
      refine ⟨hpos, ?_, ?_⟩
      · rw [← hn]
        exact takeWhile_dropWhile_nil _ _
      · refine ⟨(line.dropWhile (fun c => c = '#')).takeWhile pySpace, ?_, ?_, ?_⟩
        · have e1 : line.takeWhile (fun c => c = '#') = List.replicate l '#' := by
            rw [List.eq_replicate_iff]
            constructor
            · rw [← hl]
            · intro b hb
              have := List.mem_takeWhile_imp hb
              simpa using this
          conv_lhs => rw [← List.takeWhile_append_dropWhile (fun c => c = '#') line]
          rw [e1, ← hn]
          rw [← List.takeWhile_append_dropWhile pySpace
            (line.dropWhile (fun c => c = '#'))]
          simp [List.append_assoc, List.takeWhile_append_dropWhile]
        · rw [List.isEmpty_iff] at h2
          exact h2
        · intro c hc
          exact List.mem_takeWhile_imp hc

/-- Stripping a freshly prepended dotted number recovers the clean name. -/
theorem stripNumberPrefix_prepend (d s : List Char) (hd : d ≠ [])
    (hdd : ∀ c ∈ d, isDigitDot c = true) (hs : s.takeWhile pySpace = []) :
    stripNumberPrefix (d ++ ' ' :: s) = s := by
  have htw : (d ++ ' ' :: s).takeWhile isDigitDot = d := by
    rw [takeWhile_append_all _ _ _ hdd, List.takeWhile_cons]
    simp [isDigitDot, Char.isDigit]
  have hdw : (d ++ ' ' :: s).dropWhile isDigitDot = ' ' :: s := by
    rw [dropWhile_append_all _ _ _ hdd, List.dropWhile_cons]
    simp [isDigitDot, Char.isDigit]
  simp only [stripNumberPrefix, htw, hdw]
  rw [show (' ' :: s).takeWhile pySpace = ' ' :: s.takeWhile pySpace from by
    rw [List.takeWhile_cons]; simp [pySpace]]
  rw [hs, show (' ' :: s).dropWhile pySpace = s.dropWhile pySpace from by
    rw [List.dropWhile_cons]; simp [pySpace]]
  rw [dropWhile_of_takeWhile_nil _ _ hs]
  simp [List.isEmpty_iff, hd]

/-- The stripped name never starts with whitespace if the input did not. -/
theorem stripNumberPrefix_noLead (x : List Char)
    (hx : x.takeWhile pySpace = []) :
    (stripNumberPrefix x).takeWhile pySpace = [] := by
  simp only [stripNumberPrefix]
  by_cases h1 : (x.takeWhile isDigitDot).isEmpty
  · simpa [h1] using hx
  · simp only [h1, Bool.false_eq_true, if_false]
    by_cases h2 : ((x.dropWhile isDigitDot).takeWhile pySpace).isEmpty
    · simpa [h2] using hx
    · simp only [h2, Bool.false_eq_true, if_false]
      exact takeWhile_dropWhile_nil _ _

/-- The strip either does nothing or removes a digits-dots-then-whitespace
prefix. -/
theorem stripNumberPrefix_cases (x : List Char) :
    stripNumberPrefix x = x ∨
      ∃ d w, x = d ++ w ++ stripNumberPrefix x ∧
        (∀ c ∈ d, isDigitDot c = true) ∧ ∀ c ∈ w, pySpace c = true := by
  simp only [stripNumberPrefix]
  by_cases h1 : (x.takeWhile isDigitDot).isEmpty
  · simp [h1]
  · simp only [h1, Bool.false_eq_true, if_false]
    by_cases h2 : ((x.dropWhile isDigitDot).takeWhile pySpace).isEmpty
    · simp [h2]
    · simp only [h2, Bool.false_eq_true, if_false]
      right
      refine ⟨x.takeWhile isDigitDot,
        (x.dropWhile isDigitDot).takeWhile pySpace, ?_, ?_, ?_⟩
      · rw [List.append_assoc, List.takeWhile_append_dropWhile,
          List.takeWhile_append_dropWhile]
      · intro c hc
        exact List.mem_takeWhile_imp hc
      · intro c hc
        exact List.mem_takeWhile_imp hc

/-- Characters of the stripped name come from the name. -/
theorem stripNumberPrefix_subset (x : List Char) (c : Char)
    (h : c ∈ stripNumberPrefix x) : c ∈ x := by
  rcases stripNumberPrefix_cases x with he | ⟨d, w, he, _, _⟩
  · rwa [he] at h
  · rw [he]
    simp [h]

/-! ## The numbered prefix is made of digits and dots -/

/-- Digits of `natReprAux` are decimal digits. -/
theorem natReprAux_digits (fuel : Nat) : ∀ (n : Nat) (c : Char),
    c ∈ natReprAux fuel n → c.isDigit = true := by
  induction fuel with
  | zero => intro n c h; simp [natReprAux] at h
  | succ fuel ih =>
    intro n c h
    simp only [natReprAux] at h
    by_cases hn : n < 10
    · rw [if_pos hn] at h
      simp only [List.mem_singleton] at h
      subst h
      interval_cases n <;> decide
    · rw [if_neg hn] at h
      rcases List.mem_append.mp h with h | h
      · exact ih _ _ h
      · simp only [List.mem_singleton] at h
        subst h
        have : n % 10 < 10 := Nat.mod_lt _ (by omega)
        interval_cases hmod : n % 10 <;> simp_all <;> decide

/-- `str(n)` is never empty. -/
theorem natRepr_ne_nil (n : Nat) : natRepr n ≠ [] := by
  unfold natRepr natReprAux
  by_cases h : n < 10 <;> simp [h]

/-- Every character of `str(n)` is a digit. -/
theorem natRepr_digits (n : Nat) (c : Char) (h : c ∈ natRepr n) :
    c.isDigit = true :=
  natReprAux_digits (n + 1) n c h

/-- The whitespace class, explicitly. -/
theorem pySpace_chars (c : Char) (h : pySpace c = true) :
    c = ' ' ∨ c = '\t' ∨ c = '\n' ∨ c = '\r' ∨ c = '\x0b' ∨ c = '\x0c' := by
  have h2 := h
  simp only [pySpace, Bool.or_eq_true, decide_eq_true_eq] at h2
  tauto

/-- Digits are not whitespace. -/
theorem isDigit_pySpace_false (c : Char) (h : c.isDigit = true) :
    pySpace c = false := by
  cases hp : pySpace c with
  | false => rfl
  | true =>
    exfalso
    rcases pySpace_chars c hp with e | e | e | e | e | e <;> subst e <;> simp at h

/-- Insertion sort never produces the empty list. -/
theorem insertPairSorted_ne_nil (p : Nat × Nat) (l : List (Nat × Nat)) :
    insertPairSorted p l ≠ [] := by
  cases l with
  | nil => simp [insertPairSorted]
  | cons q rest =>
    simp only [insertPairSorted]
    split <;> simp

/-- An updated mapping is nonempty. -/
theorem ciInsert_ne_nil (m : CHAPTER_INDEXES) (k v : Nat) :
    ciInsert m k v ≠ [] := by
  cases m with
  | nil => simp [ciInsert]
  | cons p rest =>
    obtain ⟨k', v'⟩ := p
    simp only [ciInsert]
    split
    · simp
    · split <;> simp

/-- Every character of a dotted index is a digit or a dot. -/
theorem dottedIndex_chars (m : CHAPTER_INDEXES) (c : Char)
    (h : c ∈ dottedIndex m) : isDigitDot c = true := by
  rcases mem_joinWith _ _ _ h with h | ⟨l, hl, hc⟩
  · simp only [List.mem_singleton] at h
    subst h
    decide
  · simp only [List.mem_map] at hl
    obtain ⟨p, _, hp⟩ := hl
    subst hp
    simp [isDigitDot, natRepr_digits _ _ hc]

/-- A dotted index of a nonempty mapping starts with a digit. -/
theorem dottedIndex_head (m : CHAPTER_INDEXES) (hm : m ≠ []) :
    ∃ c0 t, dottedIndex m = c0 :: t ∧ c0.isDigit = true := by
  have hsp : sortPairs m ≠ [] := by
    cases m with
    | nil => exact absurd rfl hm
    | cons p rest => exact insertPairSorted_ne_nil p (sortPairs rest)
  obtain ⟨q, qs, hq⟩ := List.exists_cons_of_ne_nil hsp
  have hjoin : ∃ z, dottedIndex m = natRepr q.snd ++ z := by
    unfold dottedIndex
    rw [hq, List.map_cons]
    cases qs.map (fun p => natRepr p.snd) with
    | nil => exact ⟨[], by simp [joinWith]⟩
    | cons y ys =>
      refine ⟨['.'] ++ joinWith ['.'] (y :: ys), ?_⟩
      rw [joinWith_cons _ _ _ (by simp), List.append_assoc]
  obtain ⟨z, hz⟩ := hjoin
  obtain ⟨c0, t0, hnr⟩ := List.exists_cons_of_ne_nil (natRepr_ne_nil q.snd)
  refine ⟨c0, t0 ++ z, ?_, ?_⟩
  · rw [hz, hnr, List.cons_append]
  · exact natRepr_digits q.snd c0 (by rw [hnr]; simp)

/-- A freshly numbered chapter name starts with a digit, hence not with
whitespace. -/
theorem get_new_chapter_name_noLead (name : List Char) (m : CHAPTER_INDEXES)
    (hm : m ≠ []) :
    (get_new_chapter_name name m).takeWhile pySpace = [] := by
  obtain ⟨c0, t, he, hd⟩ := dottedIndex_head m hm
  rw [get_new_chapter_name, he, List.cons_append, List.takeWhile_cons,
    isDigit_pySpace_false c0 hd]
  simp

/-- The dotted index is nonempty (for a nonempty mapping). -/
theorem dottedIndex_ne_nil (m : CHAPTER_INDEXES) (hm : m ≠ []) :
    dottedIndex m ≠ [] := by
  obtain ⟨c0, t, he, _⟩ := dottedIndex_head m hm
  rw [he]
  simp

/-! ## Idempotence of the renumbering pass -/

/-- `scanLines_pass` with the output flag set, if-branches reduced. -/
theorem scanLines_pass_t (mn : Nat) (line : List Char) (rest : List (List Char))
    (m : CHAPTER_INDEXES) (cur : Nat)
    (h : scanStep true mn line m (max mn cur) = .pass) :
    scanLines true mn (line :: rest) m cur =
      ⟨(scanLines true mn rest m cur).names,
        (scanLines true mn rest m cur).idx,
        line :: (scanLines true mn rest m cur).out,
        (scanLines true mn rest m cur).warns⟩ := by
  rw [scanLines_pass true mn line rest m cur h]
  rfl

/-- `scanLines_hit` with the output flag set, if-branches reduced. -/
theorem scanLines_hit_t (mn : Nat) (line : List Char) (rest : List (List Char))
    (m : CHAPTER_INDEXES) (cur : Nat) (storedName : List Char)
    (m2 : CHAPTER_INDEXES) (level : Nat) (outLine : List Char)
    (warns : List (List Char))
    (h : scanStep true mn line m (max mn cur) = .hit storedName m2 level outLine warns) :
    scanLines true mn (line :: rest) m cur =
      ⟨storedName :: (scanLines true mn rest m2 level).names,
        (scanLines true mn rest m2 level).idx,
        outLine :: (scanLines true mn rest m2 level).out,
        warns ++ (scanLines true mn rest m2 level).warns⟩ := by
  rw [scanLines_hit true mn line rest m cur storedName m2 level outLine warns h]
  rfl

/-- `scanStep_eq_hit` with the output flag set: the stored name is the
numbered one. -/
theorem scanStep_eq_hit_t (mn : Nat) (line : List Char) (m : CHAPTER_INDEXES)
    (cur level : Nat) (name : List Char)
    (hp : parseHeader line = some (level, name)) (h : ¬ level < mn) :
    scanStep true mn line m cur =
      .hit
        (get_new_chapter_name name
          (ciInsert
            (if level < cur then ciEraseGt m level
              else if level > cur then ciFill m level else m)
            level
            (ciGetD
              (if level < cur then ciEraseGt m level
                else if level > cur then ciFill m level else m)
              level 0 + 1)))
        (ciInsert
          (if level < cur then ciEraseGt m level
            else if level > cur then ciFill m level else m)
          level
          (ciGetD
            (if level < cur then ciEraseGt m level
              else if level > cur then ciFill m level else m)
            level 0 + 1))
        level
        (List.replicate level '#' ++ ' ' ::
          get_new_chapter_name name
            (ciInsert
              (if level < cur then ciEraseGt m level
                else if level > cur then ciFill m level else m)
              level
              (ciGetD
                (if level < cur then ciEraseGt m level
                  else if level > cur then ciFill m level else m)
                level 0 + 1)))
        (if level > cur then
          if level - cur > 1 then [warnMsg level name cur] else []
          else []) := by
  rw [scanStep_eq_hit true mn line m cur level name hp h]
  rfl

/-- Re-scanning the rewritten output from the same initial state
reproduces the same names, final mapping, and output: the numbering pass is
idempotent on documents it has produced (warnings may differ, since the
warning message quotes the not-yet-renumbered name). -/
theorem scanLines_idem (lines : List (List Char)) (m : CHAPTER_INDEXES)
    (cur mn : Nat) (hmn : 1 ≤ mn) :
    (scanLines true mn (scanLines true mn lines m cur).out m cur).names =
        (scanLines true mn lines m cur).names ∧
    (scanLines true mn (scanLines true mn lines m cur).out m cur).idx =
        (scanLines true mn lines m cur).idx ∧
    (scanLines true mn (scanLines true mn lines m cur).out m cur).out =
        (scanLines true mn lines m cur).out := by
  induction lines generalizing m cur with
  | nil => exact ⟨rfl, rfl, rfl⟩
  | cons line rest ih =>
    cases hp : parseHeader line with
    | none =>
      have hstep := scanStep_eq_pass_of_none true mn line m (max mn cur) hp
      rw [scanLines_pass_t mn line rest m cur hstep]
      rw [scanLines_pass_t mn line _ m cur hstep]
      obtain ⟨h1, h2, h3⟩ := ih m cur
      exact ⟨h1, h2, by rw [h3]⟩
    | some lv =>
      obtain ⟨level, name⟩ := lv
      by_cases hlt : level < mn
      · have hstep := scanStep_eq_pass_of_low true mn line m (max mn cur)
          level name hp hlt
        rw [scanLines_pass_t mn line rest m cur hstep]
        rw [scanLines_pass_t mn line _ m cur hstep]
        obtain ⟨h1, h2, h3⟩ := ih m cur
        exact ⟨h1, h2, by rw [h3]⟩
      · have hstep := scanStep_eq_hit_t mn line m (max mn cur) level name hp hlt
        rw [scanLines_hit_t mn line rest m cur _ _ _ _ _ hstep]
        have hm2ne : (ciInsert
            (if level < max mn cur then ciEraseGt m level
              else if level > max mn cur then ciFill m level else m)
            level
            (ciGetD
              (if level < max mn cur then ciEraseGt m level
                else if level > max mn cur then ciFill m level else m)
              level 0 + 1)) ≠ [] := ciInsert_ne_nil _ _ _
        have hnl : name.takeWhile pySpace = [] :=
          (parseHeader_some_decomp line level name hp).2.1
        have hsl : (stripNumberPrefix name).takeWhile pySpace = [] :=
          stripNumberPrefix_noLead name hnl
        have hp2 : parseHeader (List.replicate level '#' ++ ' ' ::
            get_new_chapter_name name
              (ciInsert
                (if level < max mn cur then ciEraseGt m level
                  else if level > max mn cur then ciFill m level else m)
                level
                (ciGetD
                  (if level < max mn cur then ciEraseGt m level
                    else if level > max mn cur then ciFill m level else m)
                  level 0 + 1))) =
            some (level, get_new_chapter_name name
              (ciInsert
                (if level < max mn cur then ciEraseGt m level
                  else if level > max mn cur then ciFill m level else m)
                level
                (ciGetD
                  (if level < max mn cur then ciEraseGt m level
                    else if level > max mn cur then ciFill m level else m)
                  level 0 + 1))) :=
          parseHeader_construct level _ (by omega)
            (get_new_chapter_name_noLead name _ hm2ne)
        have hstrip : stripNumberPrefix (get_new_chapter_name name
            (ciInsert
              (if level < max mn cur then ciEraseGt m level
                else if level > max mn cur then ciFill m level else m)
              level
              (ciGetD
                (if level < max mn cur then ciEraseGt m level
                  else if level > max mn cur then ciFill m level else m)
                level 0 + 1))) = stripNumberPrefix name := by
          rw [get_new_chapter_name]
          exact stripNumberPrefix_prepend _ _ (dottedIndex_ne_nil _ hm2ne)
            (dottedIndex_chars _) hsl
        have hname2 : get_new_chapter_name (get_new_chapter_name name
            (ciInsert
              (if level < max mn cur then ciEraseGt m level
                else if level > max mn cur then ciFill m level else m)
              level
              (ciGetD
                (if level < max mn cur then ciEraseGt m level
                  else if level > max mn cur then ciFill m level else m)
                level 0 + 1)))
            (ciInsert
              (if level < max mn cur then ciEraseGt m level
                else if level > max mn cur then ciFill m level else m)
              level
              (ciGetD
                (if level < max mn cur then ciEraseGt m level
                  else if level > max mn cur then ciFill m level else m)
                level 0 + 1)) = get_new_chapter_name name
            (ciInsert
              (if level < max mn cur then ciEraseGt m level
                else if level > max mn cur then ciFill m level else m)
              level
              (ciGetD
                (if level < max mn cur then ciEraseGt m level
                  else if level > max mn cur then ciFill m level else m)
                level 0 + 1)) := by
          conv_lhs => rw [get_new_chapter_name, hstrip]
          rfl
        have hstep2 := scanStep_eq_hit_t mn _ m (max mn cur) level _ hp2 hlt
        rw [scanLines_hit_t mn _ _ m cur _ _ _ _ _ hstep2]
        obtain ⟨h1, h2, h3⟩ := ih
          (ciInsert
            (if level < max mn cur then ciEraseGt m level
              else if level > max mn cur then ciFill m level else m)
            level
            (ciGetD
              (if level < max mn cur then ciEraseGt m level
                else if level > max mn cur then ciFill m level else m)
              level 0 + 1)) level
        refine ⟨?_, h2, ?_⟩
        · rw [h1, hname2]
        · rw [h3, hname2]

/-! ## Occurrence counting -/

/-- No occurrence of a nonempty pattern in the empty text. -/
theorem countOcc_nil_of_cons (c0 : Char) (p' : List Char) :
    countOcc (c0 :: p') [] = 0 := rfl

/-- Occurrences cannot start inside a block avoiding the pattern's first
character. -/
theorem countOcc_cons_head (c0 : Char) (p' a b : List Char)
    (h : ∀ c ∈ a, c ≠ c0) :
    countOcc (c0 :: p') (a ++ b) = countOcc (c0 :: p') b := by
  induction a with
  | nil => rfl
  | cons x t ih =>
    rw [List.cons_append]
    show (if (c0 :: p').isPrefixOf (x :: (t ++ b)) then 1 else 0) +
      countOcc (c0 :: p') (t ++ b) = _
    rw [isPrefixOf_ne_head c0 p' x (t ++ b) (h x (by simp)),
      ih (fun c hc => h c (by simp [hc]))]
    simp

/-- Extending the text to the left cannot lose occurrences. -/
theorem countOcc_le_append (p a s : List Char) :
    countOcc p s ≤ countOcc p (a ++ s) := by
  induction a with
  | nil => exact Nat.le_refl _
  | cons x t ih =>
    rw [List.cons_append]
    calc countOcc p s ≤ countOcc p (t ++ s) := ih
    _ ≤ _ := by
      cases hs : t ++ s with
      | nil => simp [countOcc]
      | cons y u =>
        show countOcc p (y :: u) ≤ (if p.isPrefixOf (x :: y :: u) then 1 else 0) +
          countOcc p (y :: u)
        omega

/-- The text `pat ++ b` has at least one more occurrence than `b`. -/
theorem countOcc_self_append (c0 : Char) (p' b : List Char) :
    1 + countOcc (c0 :: p') b ≤ countOcc (c0 :: p') ((c0 :: p') ++ b) := by
  rw [List.cons_append]
  show _ ≤ (if (c0 :: p').isPrefixOf (c0 :: (p' ++ b)) then 1 else 0) +
    countOcc (c0 :: p') (p' ++ b)
  rw [show (c0 :: (p' ++ b)) = (c0 :: p') ++ b from rfl,
    isPrefixOf_append_self (c0 :: p') b, if_pos rfl]
  have := countOcc_le_append (c0 :: p') p' b
  omega

/-- A newline-free pattern matching at a position inside `u` of
`u ++ '\n' :: r` must fit inside `u`. -/
theorem prefix_stop (p : List Char) (hp : '\n' ∉ p) :
    ∀ (u r : List Char), p.isPrefixOf (u ++ '\n' :: r) = p.isPrefixOf u := by
  induction p with
  | nil => intro u r; simp [List.isPrefixOf]
  | cons c p' ih =>
    intro u r
    cases u with
    | nil =>
      rw [List.nil_append, isPrefixOf_ne_head c p' '\n' r
        (fun e => hp (by simp [← e]))]
      rfl
    | cons x u' =>
      rw [List.cons_append]
      show (c == x && p'.isPrefixOf (u' ++ '\n' :: r)) = (c == x && p'.isPrefixOf u')
      rw [ih (fun hm => hp (by simp [hm])) u' r]

/-- Occurrence counting distributes over a newline joint, for a
newline-free pattern. -/
theorem countOcc_append_newline (c0 : Char) (p' : List Char)
    (hp : '\n' ∉ c0 :: p') (a r : List Char) :
    countOcc (c0 :: p') (a ++ '\n' :: r) =
      countOcc (c0 :: p') a + countOcc (c0 :: p') r := by
  induction a with
  | nil =>
    rw [List.nil_append]
    show (if (c0 :: p').isPrefixOf ('\n' :: r) then 1 else 0) +
      countOcc (c0 :: p') r = _
    rw [isPrefixOf_ne_head c0 p' '\n' r (fun e => hp (by simp [← e]))]
    simp [countOcc]
  | cons x t ih =>
    rw [List.cons_append]
    show (if (c0 :: p').isPrefixOf (x :: (t ++ '\n' :: r)) then 1 else 0) +
      countOcc (c0 :: p') (t ++ '\n' :: r) = _
    rw [show (x :: (t ++ '\n' :: r)) = (x :: t) ++ '\n' :: r from rfl,
      prefix_stop _ hp (x :: t) r, ih]
    show _ = (if (c0 :: p').isPrefixOf (x :: t) then 1 else 0) +
      countOcc (c0 :: p') t + countOcc (c0 :: p') r
    omega

/-- Occurrences of a newline-free pattern in a newline-joined document are
the occurrences in its lines. -/
theorem countOcc_joinWith (c0 : Char) (p' : List Char) (hp : '\n' ∉ c0 :: p') :
    ∀ ls : List (List Char),
      countOcc (c0 :: p') (joinWith ['\n'] ls) =
        (ls.map (countOcc (c0 :: p'))).sum := by
  intro ls
  induction ls with
  | nil => rfl
  | cons x rest ih =>
    cases rest with
    | nil => simp [joinWith]
    | cons y ys =>
      rw [joinWith_cons _ _ _ (by simp), List.append_assoc,
        show ((['\n'] : List Char) ++ joinWith ['\n'] (y :: ys)) =
          '\n' :: joinWith ['\n'] (y :: ys) from rfl,
        countOcc_append_newline c0 p' hp, ih]
      simp

/-- Zero occurrences of a nonempty pattern means no occurrence at all. -/
theorem countOcc_eq_zero_iff (c0 : Char) (p' s : List Char) :
    countOcc (c0 :: p') s = 0 ↔ containsSub (c0 :: p') s = false := by
  induction s with
  | nil => simp [countOcc, containsSub]
  | cons c t ih =>
    show (if (c0 :: p').isPrefixOf (c :: t) then 1 else 0) +
      countOcc (c0 :: p') t = 0 ↔
      ((c0 :: p').isPrefixOf (c :: t) || containsSub (c0 :: p') t) = false
    rw [Bool.or_eq_false_iff, ← ih]
    cases hpre : (c0 :: p').isPrefixOf (c :: t) <;> simp

/-! ## The rewrite pass preserves occurrence counts per line -/

/-- For a pattern whose first character is not a hash, whitespace, digit or
dot, a line and its renumbered form carry the same occurrences. -/
theorem countOcc_strip (c0 : Char) (p' name : List Char)
    (h1 : pySpace c0 = false) (h3 : isDigitDot c0 = false) :
    countOcc (c0 :: p') (stripNumberPrefix name) = countOcc (c0 :: p') name := by
  rcases stripNumberPrefix_cases name with he | ⟨d, w, he, hd, hw⟩
  · rw [he]
  · conv_rhs => rw [he]
    rw [countOcc_cons_head c0 p' (d ++ w) _ ?_]
    intro c hc e
    subst e
    rcases List.mem_append.mp hc with hm | hm
    · rw [hd c hm] at h3
      exact absurd h3 (by simp)
    · rw [hw c hm] at h1
      exact absurd h1 (by simp)

/-- A parsed header line has the same occurrences as its raw name. -/
theorem countOcc_header_line (c0 : Char) (p' line : List Char) (l : Nat)
    (name : List Char) (hp : parseHeader line = some (l, name))
    (h1 : pySpace c0 = false) (h2 : c0 ≠ '#') :
    countOcc (c0 :: p') line = countOcc (c0 :: p') name := by
  obtain ⟨-, -, w, he, -, hw⟩ := parseHeader_some_decomp line l name hp
  rw [he, countOcc_cons_head c0 p' (List.replicate l '#' ++ w) _ ?_]
  intro c hc e
  subst e
  rcases List.mem_append.mp hc with hm | hm
  · exact h2 (List.eq_of_mem_replicate hm)
  · rw [hw c hm] at h1
    exact absurd h1 (by simp)

/-- A rewritten header line has the same occurrences as the stripped
name. -/
theorem countOcc_rewritten_line (c0 : Char) (p' : List Char) (level : Nat)
    (m2 : CHAPTER_INDEXES) (name : List Char) (h1 : pySpace c0 = false)
    (h2 : c0 ≠ '#') (h3 : isDigitDot c0 = false) :
    countOcc (c0 :: p')
        (List.replicate level '#' ++ ' ' :: get_new_chapter_name name m2) =
      countOcc (c0 :: p') (stripNumberPrefix name) := by
  have he : List.replicate level '#' ++ ' ' :: get_new_chapter_name name m2 =
      (List.replicate level '#' ++ ' ' :: (dottedIndex m2 ++ [' '])) ++
        stripNumberPrefix name := by
    rw [get_new_chapter_name]
    simp [List.append_assoc]
  rw [he, countOcc_cons_head c0 p' _ _ ?_]
  intro c hc e
  subst e
  rcases List.mem_append.mp hc with hm | hm
  · exact h2 (List.eq_of_mem_replicate hm)
  · rcases List.mem_cons.mp hm with hm1 | hm1
    · rw [hm1] at h1
      exact absurd h1 (by simp [pySpace])
    · rcases List.mem_append.mp hm1 with hm2 | hm2
      · rw [dottedIndex_chars m2 _ hm2] at h3
        exact absurd h3 (by simp)
      · simp only [List.mem_singleton] at hm2
        rw [hm2] at h1
        exact absurd h1 (by simp [pySpace])

/-- Per-line occurrence counts survive the rewrite pass. -/
theorem scanLines_out_countOcc_map (c0 : Char) (p' : List Char)
    (h1 : pySpace c0 = false) (h2 : c0 ≠ '#') (h3 : isDigitDot c0 = false)
    (lines : List (List Char)) (m : CHAPTER_INDEXES) (cur mn : Nat) :
    (scanLines true mn lines m cur).out.map (countOcc (c0 :: p')) =
      lines.map (countOcc (c0 :: p')) := by
  induction lines generalizing m cur with
  | nil => rfl
  | cons line rest ih =>
    cases hp : parseHeader line with
    | none =>
      rw [scanLines_pass_t mn line rest m cur
        (scanStep_eq_pass_of_none true mn line m (max mn cur) hp)]
      simp only [List.map_cons, ih m cur]
    | some lv =>
      obtain ⟨level, name⟩ := lv
      by_cases hlt : level < mn
      · rw [scanLines_pass_t mn line rest m cur
          (scanStep_eq_pass_of_low true mn line m (max mn cur) level name hp hlt)]
        simp only [List.map_cons, ih m cur]
      · rw [scanLines_hit_t mn line rest m cur _ _ _ _ _
          (scanStep_eq_hit_t mn line m (max mn cur) level name hp hlt)]
        simp only [List.map_cons]
        rw [ih, countOcc_rewritten_line c0 p' level _ name h1 h2 h3,
          countOcc_strip c0 p' name h1 h3,
          countOcc_header_line c0 p' line level name hp h1 h2]

/-- The rewrite pass emits exactly one line per input line. -/
theorem scanLines_out_length (lines : List (List Char)) (m : CHAPTER_INDEXES)
    (cur mn : Nat) :
    (scanLines true mn lines m cur).out.length = lines.length := by
  induction lines generalizing m cur with
  | nil => rfl
  | cons line rest ih =>
    cases hp : parseHeader line with
    | none =>
      rw [scanLines_pass_t mn line rest m cur
        (scanStep_eq_pass_of_none true mn line m (max mn cur) hp)]
      simp [ih m cur]
    | some lv =>
      obtain ⟨level, name⟩ := lv
      by_cases hlt : level < mn
      · rw [scanLines_pass_t mn line rest m cur
          (scanStep_eq_pass_of_low true mn line m (max mn cur) level name hp hlt)]
        simp [ih m cur]
      · rw [scanLines_hit_t mn line rest m cur _ _ _ _ _
          (scanStep_eq_hit_t mn line m (max mn cur) level name hp hlt)]
        simp [ih]

/-- The rewrite pass introduces no newline into any line. -/
theorem scanLines_out_no_newline (lines : List (List Char))
    (m : CHAPTER_INDEXES) (cur mn : Nat) (h : ∀ l ∈ lines, '\n' ∉ l) :
    ∀ l ∈ (scanLines true mn lines m cur).out, '\n' ∉ l := by
  induction lines generalizing m cur with
  | nil => simp [scanLines_nil]
  | cons line rest ih =>
    cases hp : parseHeader line with
    | none =>
      rw [scanLines_pass_t mn line rest m cur
        (scanStep_eq_pass_of_none true mn line m (max mn cur) hp)]
      intro l hl
      rcases List.mem_cons.mp hl with e | hl2
      · rw [e]; exact h line (by simp)
      · exact ih m cur (fun x hx => h x (by simp [hx])) l hl2
    | some lv =>
      obtain ⟨level, name⟩ := lv
      by_cases hlt : level < mn
      · rw [scanLines_pass_t mn line rest m cur
          (scanStep_eq_pass_of_low true mn line m (max mn cur) level name hp hlt)]
        intro l hl
        rcases List.mem_cons.mp hl with e | hl2
        · rw [e]; exact h line (by simp)
        · exact ih m cur (fun x hx => h x (by simp [hx])) l hl2
      · rw [scanLines_hit_t mn line rest m cur _ _ _ _ _
          (scanStep_eq_hit_t mn line m (max mn cur) level name hp hlt)]
        intro l hl
        rcases List.mem_cons.mp hl with e | hl2
        · rw [e]
          intro hmem
          rcases List.mem_append.mp hmem with hm | hm
          · have := List.eq_of_mem_replicate hm
            simp at this
          · rcases List.mem_cons.mp hm with e1 | hm1
            · simp at e1
            · rw [get_new_chapter_name] at hm1
              rcases List.mem_append.mp hm1 with hm2 | hm2
              · have := dottedIndex_chars _ _ hm2
                simp [isDigitDot] at this
              · rcases List.mem_cons.mp hm2 with e2 | hm3
                · simp at e2
                · have hin := stripNumberPrefix_subset name _ hm3
                  obtain ⟨-, -, w, he, -, -⟩ :=
                    parseHeader_some_decomp line level name hp
                  exact h line (by simp) (by rw [he]; simp [hin])
        · exact ih _ _ (fun x hx => h x (by simp [hx])) l hl2

/-! ## `split` and `join` are inverse on documents -/

/-- `splitLines` never returns the empty list. -/
theorem splitLines_ne_nil (s : List Char) : splitLines s ≠ [] := by
  cases s with
  | nil => simp [splitLines]
  | cons c t =>
    simp only [splitLines]
    split
    · simp
    · cases splitLines t <;> simp

/-- Lines produced by `splitLines` contain no newline. -/
theorem splitLines_no_newline (s : List Char) :
    ∀ l ∈ splitLines s, '\n' ∉ l := by
  induction s with
  | nil => simp [splitLines]
  | cons c t ih =>
    by_cases hc : c = '\n'
    · simp only [splitLines, if_pos hc]
      intro l hl
      rcases List.mem_cons.mp hl with e | hl2
      · rw [e]; simp
      · exact ih l hl2
    · simp only [splitLines, if_neg hc]
      cases he : splitLines t with
      | nil => exact absurd he (splitLines_ne_nil t)
      | cons x xs =>
        intro l hl
        rcases List.mem_cons.mp hl with e | hl2
        · rw [e]
          intro hmem
          rcases List.mem_cons.mp hmem with e1 | hm
          · exact hc e1.symm
          · exact ih x (by rw [he]; simp) hm
        · exact ih l (by rw [he]; simp [hl2])

/-- `'\n'.join` undoes `split('\n')`. -/
theorem joinWith_splitLines (s : List Char) :
    joinWith ['\n'] (splitLines s) = s := by
  induction s with
  | nil => rfl
  | cons c t ih =>
    by_cases hc : c = '\n'
    · rw [show splitLines (c :: t) = [] :: splitLines t from by
        simp [splitLines, hc]]
      rw [joinWith_cons _ _ _ (splitLines_ne_nil t), ih]
      simp [hc]
    · rw [show splitLines (c :: t) = match splitLines t with
        | [] => [[c]]
        | l :: ls => (c :: l) :: ls from by simp [splitLines, hc]]
      cases he : splitLines t with
      | nil => exact absurd he (splitLines_ne_nil t)
      | cons x xs =>
        cases xs with
        | nil =>
          rw [he] at ih
          show c :: x = c :: t
          rw [show joinWith ['\n'] [x] = x from rfl] at ih
          rw [ih]
        | cons y ys =>
          rw [he] at ih
          rw [joinWith_cons _ _ _ (by simp)]
          rw [joinWith_cons _ _ _ (by simp)] at ih
          rw [show (c :: x) ++ ['\n'] ++ joinWith ['\n'] (y :: ys) =
            c :: (x ++ ['\n'] ++ joinWith ['\n'] (y :: ys)) from by simp, ih]

/-! ## Splitting at occurrences -/

/-- `containsSub` is substring occurrence. -/
theorem containsSub_infix_iff (p s : List Char) :
    containsSub p s = true ↔ p <:+: s := by
  induction s with
  | nil =>
    show p.isEmpty = true ↔ _
    rw [List.isEmpty_iff, List.infix_nil]
  | cons c t ih =>
    show (p.isPrefixOf (c :: t) || containsSub p t) = true ↔ _
    rw [Bool.or_eq_true, List.isPrefixOf_iff_prefix, ih, List.infix_cons_iff]

/-- Occurrence is monotone along the infix order. -/
theorem containsSub_mono (p q s : List Char) (hpq : p <:+: q)
    (h : containsSub q s = true) : containsSub p s = true :=
  (containsSub_infix_iff p s).mpr
    (List.IsInfix.trans hpq ((containsSub_infix_iff q s).mp h))

/-- Contrapositive form: if `p` sits inside `q`, a `p`-free text is
`q`-free. -/
theorem containsSub_mono_false (p q s : List Char) (hpq : p <:+: q)
    (h : containsSub p s = false) : containsSub q s = false := by
  cases hq : containsSub q s with
  | false => rfl
  | true => rw [containsSub_mono p q s hpq hq] at h; exact h

/-- A successful first split decomposes the text. -/
theorem splitOnFirst_some_decomp (p s a b : List Char)
    (h : splitOnFirst p s = some (a, b)) : s = a ++ p ++ b := by
  induction s generalizing a with
  | nil =>
    by_cases he : p.isEmpty
    · simp only [splitOnFirst, he, if_true] at h
      obtain ⟨e1, e2⟩ := Prod.mk.injEq .. ▸ Option.some.injEq .. ▸ h
      rw [List.isEmpty_iff] at he
      simp [← e1, ← e2, he]
    · simp [splitOnFirst, he] at h
  | cons c t ih =>
    by_cases hpre : p.isPrefixOf (c :: t)
    · simp only [splitOnFirst, hpre, if_true, Option.some.injEq,
        Prod.mk.injEq] at h
      obtain ⟨e1, e2⟩ := h
      rw [List.isPrefixOf_iff_prefix, List.prefix_iff_eq_take] at hpre
      rw [← e1, ← e2, List.nil_append]
      conv_lhs => rw [← List.take_append_drop p.length (c :: t), ← hpre]
    · simp only [splitOnFirst, hpre, Bool.false_eq_true, if_false] at h
      cases hsp : splitOnFirst p t with
      | none => rw [hsp] at h; simp at h
      | some ab =>
        obtain ⟨a', b'⟩ := ab
        rw [hsp] at h
        simp only [Option.some.injEq, Prod.mk.injEq] at h
        obtain ⟨e1, e2⟩ := h
        rw [e2] at hsp
        rw [← e1, List.cons_append, List.cons_append, ih a' hsp]

/-- If the pattern occurs, the first split succeeds. -/
theorem splitOnFirst_isSome_of_contains (p s : List Char)
    (h : containsSub p s = true) : splitOnFirst p s ≠ none := by
  induction s with
  | nil =>
    show ¬ (if p.isEmpty then some (([] : List Char), ([] : List Char))
      else none) = none
    have : p.isEmpty = true := h
    simp [this]
  | cons c t ih =>
    show ¬ (if p.isPrefixOf (c :: t) then _ else _) = none
    by_cases hpre : p.isPrefixOf (c :: t)
    · simp [hpre]
    · have hct : containsSub p t = true := by
        have h2 : (p.isPrefixOf (c :: t) || containsSub p t) = true := h
        rw [Bool.or_eq_true] at h2
        rcases h2 with h2 | h2
        · exact absurd h2 hpre
        · exact h2
      simp only [hpre, Bool.false_eq_true, if_false]
      cases hsp : splitOnFirst p t with
      | none => exact absurd hsp (ih hct)
      | some ab => simp

/-- The text after the first occurrence carries all but one occurrence. -/
theorem countOcc_after_first (c0 : Char) (p' s a b : List Char)
    (h : splitOnFirst (c0 :: p') s = some (a, b))
    (hc : countOcc (c0 :: p') s ≤ 1) : countOcc (c0 :: p') b = 0 := by
  have hd := splitOnFirst_some_decomp _ _ _ _ h
  have h1 : 1 + countOcc (c0 :: p') b ≤ countOcc (c0 :: p') s := by
    rw [hd, List.append_assoc]
    calc 1 + countOcc (c0 :: p') b ≤ countOcc (c0 :: p') ((c0 :: p') ++ b) :=
      countOcc_self_append c0 p' b
    _ ≤ _ := countOcc_le_append _ a _
  omega

/-- `replaceFirstN` in terms of the first occurrence. -/
theorem replaceFirstN_via_splitOnFirst (n : Nat) (p r s : List Char)
    (hne : p.isEmpty = false) :
    replaceFirstN (n + 1) p r s =
      match splitOnFirst p s with
      | none => s
      | some (a, b) => a ++ r ++ replaceFirstN n p r b := by
  induction s with
  | nil =>
    show replaceFirstN (n + 1) p r [] = _
    rw [replaceFirstN_nil]
    show ([] : List Char) =
      match (if p.isEmpty then some (([] : List Char), ([] : List Char))
        else none) with
      | none => ([] : List Char)
      | some (a, b) => a ++ r ++ replaceFirstN n p r b
    simp [hne]
  | cons c t ih =>
    by_cases hpre : p.isPrefixOf (c :: t)
    · rw [replaceFirstN_match n p r c t hne hpre]
      show _ = match (if p.isPrefixOf (c :: t) then
          some (([] : List Char), (c :: t).drop p.length) else _) with
        | none => c :: t
        | some (a, b) => a ++ r ++ replaceFirstN n p r b
      rw [hpre]
      simp
    · rw [replaceFirstN_nomatch n p r c t hne
        (by cases hx : p.isPrefixOf (c :: t) with
          | false => rfl
          | true => exact absurd hx hpre)]
      show _ = match (if p.isPrefixOf (c :: t) then _
          else match splitOnFirst p t with
            | some (a, b) => some (c :: a, b)
            | none => none) with
        | none => c :: t
        | some (a, b) => a ++ r ++ replaceFirstN n p r b
      rw [if_neg hpre]
      cases hsp : splitOnFirst p t with
      | none =>
        rw [ih, hsp]
      | some ab =>
        obtain ⟨a', b'⟩ := ab
        rw [ih, hsp]
        simp [List.append_assoc]

/-- With no occurrence present, `replaceFirstN` is the identity. -/
theorem replaceFirstN_no_occ (n : Nat) (p r s : List Char)
    (hne : p.isEmpty = false) (h : containsSub p s = false) :
    replaceFirstN n p r s = s := by
  cases n with
  | zero => exact replaceFirstN_zero p r s
  | succ n =>
    rw [replaceFirstN_via_splitOnFirst n p r s hne,
      splitOnFirst_eq_none p s h]

/-- When no position inside `a` starts a match, the first split lands
exactly on the explicit occurrence. -/
theorem splitOnFirst_append (c0 : Char) (p' a b : List Char)
    (h : ∀ a1 a2, a = a1 ++ a2 → a2 ≠ [] →
      (c0 :: p').isPrefixOf (a2 ++ (c0 :: p') ++ b) = false) :
    splitOnFirst (c0 :: p') (a ++ (c0 :: p') ++ b) = some (a, b) := by
  induction a with
  | nil =>
    rw [List.nil_append, List.cons_append]
    show (if (c0 :: p').isPrefixOf (c0 :: (p' ++ b)) = true then
        some (([] : List Char), (c0 :: (p' ++ b)).drop (c0 :: p').length)
      else _) = _
    rw [show (c0 :: (p' ++ b)) = (c0 :: p') ++ b from rfl,
      isPrefixOf_append_self, if_pos rfl, List.drop_left]
  | cons x a' ih =>
    have hx : (c0 :: p').isPrefixOf (x :: (a' ++ (c0 :: p') ++ b)) = false := by
      have h0 := h [] (x :: a') rfl (by simp)
      simpa using h0
    rw [show (x :: a') ++ (c0 :: p') ++ b = x :: (a' ++ (c0 :: p') ++ b) from
      by simp]
    simp only [splitOnFirst, hx, Bool.false_eq_true, if_false]
    rw [ih (fun a1 a2 he hne => h (x :: a1) a2 (by rw [he]; rfl) hne)]

/-- Without an occurrence there is nothing for the last split either. -/
theorem splitOnLast_eq_none (pat s : List Char)
    (h : containsSub pat s = false) : splitOnLast pat s = none := by
  induction s with
  | nil =>
    show (if pat.isEmpty then _ else none) = none
    have he : pat.isEmpty = false := h
    simp [he]
  | cons c t ih =>
    have hh : (pat.isPrefixOf (c :: t) || containsSub pat t) = false := h
    rw [Bool.or_eq_false_iff] at hh
    show (match splitOnLast pat t with
      | some (a, b) => some (c :: a, b)
      | none => if pat.isPrefixOf (c :: t) then
          some (([] : List Char), (c :: t).drop pat.length)
        else none) = none
    rw [ih hh.2, hh.1]
    simp

/-- When nothing matches past the explicit occurrence, the last split
lands exactly on it. -/
theorem splitOnLast_append (c0 : Char) (p' a b : List Char)
    (h : containsSub (c0 :: p') (p' ++ b) = false) :
    splitOnLast (c0 :: p') (a ++ (c0 :: p') ++ b) = some (a, b) := by
  induction a with
  | nil =>
    rw [List.nil_append, List.cons_append]
    show (match splitOnLast (c0 :: p') (p' ++ b) with
      | some (x, y) => some (c0 :: x, y)
      | none => if (c0 :: p').isPrefixOf (c0 :: (p' ++ b)) then
          some (([] : List Char), (c0 :: (p' ++ b)).drop (c0 :: p').length)
        else none) = _
    rw [splitOnLast_eq_none _ _ h]
    rw [show (c0 :: (p' ++ b)) = (c0 :: p') ++ b from rfl,
      isPrefixOf_append_self, if_pos rfl, List.drop_left]
  | cons x a' ih =>
    rw [show (x :: a') ++ (c0 :: p') ++ b = x :: (a' ++ (c0 :: p') ++ b) from
      by simp]
    show (match splitOnLast (c0 :: p') (a' ++ (c0 :: p') ++ b) with
      | some (r, s) => some (x :: r, s)
      | none => _) = _
    rw [ih]

/-- No occurrence of `TOC_BEGIN` can start strictly inside text preceding
an explicit `TOC_BEGIN`, provided that text is free of the marker stem
`%TOC`: the marker's only nontrivial border is `$`, and the corresponding
spanning overlap would put `$%TOC_BEGIN` — which contains the stem — into
the preceding text. -/
theorem noSpan_tocBegin (a2 b : List Char) (h1 : a2 ≠ [])
    (h2 : containsSub "%TOC".data a2 = false) :
    TOC_BEGIN.isPrefixOf (a2 ++ TOC_BEGIN ++ b) = false := by
  cases hx : TOC_BEGIN.isPrefixOf (a2 ++ TOC_BEGIN ++ b) with
  | false => rfl
  | true =>
    exfalso
    have hpre : TOC_BEGIN = (a2 ++ TOC_BEGIN ++ b).take 12 := by
      have h0 := List.prefix_iff_eq_take.mp (List.isPrefixOf_iff_prefix.mp hx)
      rwa [show TOC_BEGIN.length = 12 from rfl] at h0
    by_cases hlen : 12 ≤ a2.length
    · have hsplit1 : (a2 ++ TOC_BEGIN ++ b).take 12 = a2.take 12 := by
        rw [List.append_assoc, List.take_append_eq_append_take,
          show (12 : Nat) - a2.length = 0 from by omega, List.take_zero,
          List.append_nil]
      have htk : a2.take 12 = TOC_BEGIN := by
        rw [← hsplit1, ← hpre]
      have hp2 : TOC_BEGIN <+: a2 := by
        rw [← htk]
        exact List.take_prefix 12 a2
      have hinf : containsSub "%TOC".data a2 = true := by
        apply containsSub_mono _ TOC_BEGIN _ (by decide)
        rw [containsSub_infix_iff]
        exact List.IsPrefix.isInfix hp2
      rw [hinf] at h2
      exact absurd h2 (by simp)
    · have hlp : a2.length < 12 := by omega
      have hlpos : 0 < a2.length := List.length_pos_of_ne_nil h1
      have hsplit2 : (a2 ++ TOC_BEGIN ++ b).take 12 =
          a2 ++ TOC_BEGIN.take (12 - a2.length) := by
        rw [List.append_assoc, List.take_append_eq_append_take,
          List.take_of_length_le (show a2.length ≤ 12 from by omega),
          List.take_append_eq_append_take,
          show 12 - a2.length - TOC_BEGIN.length = 0 from by
            have he : TOC_BEGIN.length = 12 := rfl
            omega,
          List.take_zero, List.append_nil]
      have htk : a2 ++ TOC_BEGIN.take (12 - a2.length) = TOC_BEGIN := by
        rw [← hsplit2, ← hpre]
      have ha2 : a2 = TOC_BEGIN.take a2.length := by
        have h0 := congrArg (List.take a2.length) htk
        rwa [List.take_left] at h0
      have hBB : TOC_BEGIN =
          TOC_BEGIN.take a2.length ++ TOC_BEGIN.take (12 - a2.length) := by
        conv_lhs => rw [← htk]
        rw [← ha2]
      obtain ⟨k, hk⟩ : ∃ k, a2.length = k := ⟨_, rfl⟩
      rw [hk] at hlp hlpos ha2 hBB
      interval_cases k
      · exact absurd hBB (by decide)
      · exact absurd hBB (by decide)
      · exact absurd hBB (by decide)
      · exact absurd hBB (by decide)
      · exact absurd hBB (by decide)
      · exact absurd hBB (by decide)
      · exact absurd hBB (by decide)
      · exact absurd hBB (by decide)
      · exact absurd hBB (by decide)
      · exact absurd hBB (by decide)
      · rw [ha2] at h2
        exact absurd h2 (by decide)

/-- Nothing past an explicit `TOC_END` matches `TOC_END` again when the
following text is free of the marker stem `%TOC`. -/
theorem noTail_tocEnd (b : List Char)
    (hb : containsSub "%TOC".data b = false) :
    containsSub TOC_END ("%TOC_END$".data ++ b) = false := by
  have hEb : containsSub TOC_END b = false :=
    containsSub_mono_false _ _ _ (by decide) hb
  have hlast : TOC_END.isPrefixOf ('$' :: b) = false := by
    show (('$' :: "%TOC_END$".data) : List Char).isPrefixOf ('$' :: b) = false
    cases hq : ("%TOC_END$".data : List Char).isPrefixOf b with
    | false =>
      show (('$' == '$') && ("%TOC_END$".data : List Char).isPrefixOf b) = false
      rw [hq]
      simp
    | true =>
      exfalso
      have hstem : ("%TOC".data : List Char) <+: b :=
        List.IsPrefix.trans (by decide) (List.isPrefixOf_iff_prefix.mp hq)
      have hc : containsSub "%TOC".data b = true := by
        rw [containsSub_infix_iff]
        exact hstem.isInfix
      rw [hc] at hb
      exact absurd hb (by simp)
  have hne : ∀ (hd : Char) (z : List Char), hd ≠ '$' →
      TOC_END.isPrefixOf (hd :: z) = false := by
    intro hd z hhd
    show (('$' :: "%TOC_END$".data) : List Char).isPrefixOf (hd :: z) = false
    exact isPrefixOf_ne_head '$' _ hd z hhd
  show containsSub TOC_END
    ('%' :: 'T' :: 'O' :: 'C' :: '_' :: 'E' :: 'N' :: 'D' :: '$' :: b) = false
  simp only [containsSub, Bool.or_eq_false_iff]
  exact ⟨hne '%' _ (by decide), hne 'T' _ (by decide), hne 'O' _ (by decide),
    hne 'C' _ (by decide), hne '_' _ (by decide), hne 'E' _ (by decide),
    hne 'N' _ (by decide), hne 'D' _ (by decide), hlast, hEb⟩

/-- Occurrence-freeness restricts to any contiguous part. -/
theorem containsSub_part_false (p x y : List Char) (hxy : y <:+: x)
    (h : containsSub p x = false) : containsSub p y = false := by
  cases hy : containsSub p y with
  | false => rfl
  | true =>
    have := (containsSub_infix_iff p x).mpr
      (List.IsInfix.trans ((containsSub_infix_iff p y).mp hy) hxy)
    rw [this] at h
    exact h

/-- The generated block, split around its markers. -/
def tocMid (toc_chapter_name : List Char) (chapter_names : List (List Char)) :
    List Char :=
  '\n' :: "## ".data ++ toc_chapter_name ++ '\n' ::
    joinWith ['\n'] (chapter_names.map chapter_name_to_md_item) ++ ['\n']

/-- The block is `TOC_BEGIN`, middle, `TOC_END`. -/
theorem tocContent_decomp (toc_chapter_name : List Char)
    (chapter_names : List (List Char)) :
    tocContent toc_chapter_name chapter_names =
      TOC_BEGIN ++ tocMid toc_chapter_name chapter_names ++ TOC_END := by
  rw [tocContent, tocMid]
  simp [List.append_assoc]

/-- C2 (amended): the full transformation is idempotent on documents with
at most one `[TOC]` placeholder, no occurrence of the marker stem `%TOC`,
and no backslash (a backslash in the replacement text would be processed
as a `re.sub` escape by Python, which the model does not reproduce; the
hypothesis keeps the model honest and is not otherwise used). -/
theorem spec_c2_idempotent_restricted (content : List Char)
    (hM : countOcc TOC_MARK content ≤ 1)
    (hStem : containsSub "%TOC".data content = false)
    (hBack : '\\' ∉ content) :
    generate_content (generate_content content) = generate_content content := by
  have hBfree : containsSub TOC_BEGIN content = false :=
    containsSub_mono_false _ _ _ (by decide) hStem
  have hcol : collapseToc content = content :=
    collapseToc_of_no_begin content hBfree
  have hlnn : ∀ l ∈ splitLines content, '\n' ∉ l :=
    splitLines_no_newline content
  have hjoin : joinWith ['\n'] (splitLines content) = content :=
    joinWith_splitLines content
  have honn : ∀ l ∈ (scanLines true 2 (splitLines content) [(2, 0)] 0).out,
      '\n' ∉ l :=
    scanLines_out_no_newline (splitLines content) [(2, 0)] 0 2 hlnn
  have hone : (scanLines true 2 (splitLines content) [(2, 0)] 0).out ≠ [] := by
    intro e
    have hl := scanLines_out_length (splitLines content) [(2, 0)] 0 2
    rw [e] at hl
    have : splitLines content = [] :=
      List.length_eq_zero.mp hl.symm
    exact splitLines_ne_nil content this
  have hsplit2 : splitLines (joinWith ['\n']
      (scanLines true 2 (splitLines content) [(2, 0)] 0).out) =
      (scanLines true 2 (splitLines content) [(2, 0)] 0).out :=
    splitLines_joinWith _ hone honn
  obtain ⟨hnames2, hidx2, hout2⟩ :=
    scanLines_idem (splitLines content) [(2, 0)] 0 2 (by omega)
  have hMeq : countOcc TOC_MARK (joinWith ['\n']
      (scanLines true 2 (splitLines content) [(2, 0)] 0).out) =
      countOcc TOC_MARK content := by
    show countOcc ('[' :: "TOC]".data) _ = countOcc ('[' :: "TOC]".data) _
    rw [countOcc_joinWith '[' _ (by decide),
      scanLines_out_countOcc_map '[' _ (by decide) (by decide) (by decide)
        (splitLines content) [(2, 0)] 0 2,
      ← countOcc_joinWith '[' _ (by decide), hjoin]
  have hSeq : containsSub "%TOC".data (joinWith ['\n']
      (scanLines true 2 (splitLines content) [(2, 0)] 0).out) = false := by
    have h0 : countOcc ('%' :: "TOC".data) content = 0 :=
      (countOcc_eq_zero_iff '%' _ _).mpr hStem
    have h1 : countOcc ('%' :: "TOC".data) (joinWith ['\n']
        (scanLines true 2 (splitLines content) [(2, 0)] 0).out) = 0 := by
      rw [countOcc_joinWith '%' _ (by decide),
        scanLines_out_countOcc_map '%' _ (by decide) (by decide) (by decide)
          (splitLines content) [(2, 0)] 0 2,
        ← countOcc_joinWith '%' _ (by decide), hjoin]
      exact h0
    exact (countOcc_eq_zero_iff '%' _ _).mp h1
  have hg1 : generate_content content =
      spliceToc (tocContent TOC_CHAPTER_NAME
        (scanLines true 2 (splitLines content) [(2, 0)] 0).names)
      (joinWith ['\n'] (scanLines true 2 (splitLines content) [(2, 0)] 0).out) := by
    show spliceToc _ _ = _
    rw [hcol]
  by_cases hM0 : countOcc TOC_MARK content = 0
  · -- no placeholder: the splice is the identity in both runs
    have hMfree : containsSub TOC_MARK (joinWith ['\n']
        (scanLines true 2 (splitLines content) [(2, 0)] 0).out) = false := by
      have := hMeq.trans hM0
      exact (countOcc_eq_zero_iff '[' "TOC]".data _).mp this
    have hgid : generate_content content = joinWith ['\n']
        (scanLines true 2 (splitLines content) [(2, 0)] 0).out := by
      rw [hg1]
      exact replaceFirstN_no_occ 8 TOC_MARK _ _ rfl hMfree
    rw [hgid]
    have hB2 : containsSub TOC_BEGIN (joinWith ['\n']
        (scanLines true 2 (splitLines content) [(2, 0)] 0).out) = false :=
      containsSub_mono_false _ _ _ (by decide) hSeq
    have hcol2 : collapseToc (joinWith ['\n']
        (scanLines true 2 (splitLines content) [(2, 0)] 0).out) =
        joinWith ['\n'] (scanLines true 2 (splitLines content) [(2, 0)] 0).out :=
      collapseToc_of_no_begin _ hB2
    show spliceToc _ _ = _
    rw [hcol2, hsplit2, hout2, hnames2]
    exact replaceFirstN_no_occ 8 TOC_MARK _ _ rfl hMfree
  · -- exactly one placeholder
    have hM1 : countOcc TOC_MARK content = 1 := by omega
    have hMoc : countOcc TOC_MARK (joinWith ['\n']
        (scanLines true 2 (splitLines content) [(2, 0)] 0).out) = 1 :=
      hMeq.trans hM1
    have hMcontains : containsSub TOC_MARK (joinWith ['\n']
        (scanLines true 2 (splitLines content) [(2, 0)] 0).out) = true := by
      cases hcc : containsSub TOC_MARK (joinWith ['\n']
          (scanLines true 2 (splitLines content) [(2, 0)] 0).out) with
      | true => rfl
      | false =>
        have h0 : countOcc TOC_MARK (joinWith ['\n']
            (scanLines true 2 (splitLines content) [(2, 0)] 0).out) = 0 :=
          (countOcc_eq_zero_iff '[' "TOC]".data _).mpr hcc
        rw [hMoc] at h0
        exact absurd h0 (by simp)
    obtain ⟨ab, hsp⟩ := Option.ne_none_iff_exists'.mp
      (splitOnFirst_isSome_of_contains TOC_MARK _ hMcontains)
    obtain ⟨a', b'⟩ := ab
    have hdec : joinWith ['\n']
        (scanLines true 2 (splitLines content) [(2, 0)] 0).out =
        a' ++ TOC_MARK ++ b' :=
      splitOnFirst_some_decomp TOC_MARK _ a' b' hsp
    have hb0 : countOcc TOC_MARK b' = 0 :=
      countOcc_after_first '[' "TOC]".data _ a' b' hsp
        (show countOcc TOC_MARK _ ≤ 1 from hMoc.le)
    have hbfree : containsSub TOC_MARK b' = false :=
      (countOcc_eq_zero_iff '[' "TOC]".data b').mp hb0
    have hsplice : ∀ names : List (List Char),
        spliceToc (tocContent TOC_CHAPTER_NAME names)
          (joinWith ['\n']
            (scanLines true 2 (splitLines content) [(2, 0)] 0).out) =
          a' ++ tocContent TOC_CHAPTER_NAME names ++ b' := by
      intro names
      show replaceFirstN 8 TOC_MARK _ _ = _
      rw [show (8 : Nat) = 7 + 1 from rfl,
        replaceFirstN_via_splitOnFirst 7 TOC_MARK _ _ rfl, hsp]
      show a' ++ tocContent TOC_CHAPTER_NAME names ++
        replaceFirstN 7 TOC_MARK (tocContent TOC_CHAPTER_NAME names) b' = _
      rw [replaceFirstN_no_occ 7 TOC_MARK _ b' rfl hbfree]
    have hsa : containsSub "%TOC".data a' = false := by
      apply containsSub_part_false _ _ _ _ hSeq
      rw [hdec]
      exact List.IsPrefix.isInfix ⟨TOC_MARK ++ b', by simp [List.append_assoc]⟩
    have hsb : containsSub "%TOC".data b' = false := by
      apply containsSub_part_false _ _ _ _ hSeq
      rw [hdec]
      exact List.IsSuffix.isInfix ⟨a' ++ TOC_MARK, by simp [List.append_assoc]⟩
    have hg1' : generate_content content =
        a' ++ tocContent TOC_CHAPTER_NAME
          (scanLines true 2 (splitLines content) [(2, 0)] 0).names ++ b' := by
      rw [hg1, hsplice]
    -- collapsing the generated block restores the placeholder
    have hshape : ∀ names : List (List Char),
        a' ++ tocContent TOC_CHAPTER_NAME names ++ b' =
          a' ++ TOC_BEGIN ++ (tocMid TOC_CHAPTER_NAME names ++ TOC_END ++ b') := by
      intro names
      rw [tocContent_decomp]
      simp [List.append_assoc]
    have hfirst : ∀ names : List (List Char),
        splitOnFirst TOC_BEGIN
          (a' ++ TOC_BEGIN ++ (tocMid TOC_CHAPTER_NAME names ++ TOC_END ++ b')) =
          some (a', tocMid TOC_CHAPTER_NAME names ++ TOC_END ++ b') := by
      intro names
      apply splitOnFirst_append '$' "%TOC_BEGIN$".data a' _
      intro a1 a2 he hne
      apply noSpan_tocBegin a2 _ hne
      apply containsSub_part_false _ a' _ _ hsa
      exact List.IsSuffix.isInfix ⟨a1, he.symm⟩
    have hlast : ∀ names : List (List Char),
        splitOnLast TOC_END
          (tocMid TOC_CHAPTER_NAME names ++ TOC_END ++ b') =
          some (tocMid TOC_CHAPTER_NAME names, b') := by
      intro names
      apply splitOnLast_append '$' "%TOC_END$".data _ b'
      exact noTail_tocEnd b' hsb
    have hcol2 : ∀ names : List (List Char),
        collapseToc (a' ++ tocContent TOC_CHAPTER_NAME names ++ b') =
          joinWith ['\n']
            (scanLines true 2 (splitLines content) [(2, 0)] 0).out := by
      intro names
      rw [hshape]
      show (match splitOnFirst TOC_BEGIN
          (a' ++ TOC_BEGIN ++ (tocMid TOC_CHAPTER_NAME names ++ TOC_END ++ b')) with
        | none => a' ++ TOC_BEGIN ++ (tocMid TOC_CHAPTER_NAME names ++ TOC_END ++ b')
        | some (a, rest) =>
          match splitOnLast TOC_END rest with
          | none => a' ++ TOC_BEGIN ++ (tocMid TOC_CHAPTER_NAME names ++ TOC_END ++ b')
          | some (_, b) => a ++ TOC_MARK ++ b) = _
      rw [hfirst]
      show (match splitOnLast TOC_END
          (tocMid TOC_CHAPTER_NAME names ++ TOC_END ++ b') with
        | none => a' ++ TOC_BEGIN ++
            (tocMid TOC_CHAPTER_NAME names ++ TOC_END ++ b')
        | some (_, b) => a' ++ TOC_MARK ++ b) = _
      rw [hlast names]
      exact hdec.symm
    rw [hg1']
    show spliceToc _ _ = _
    rw [hcol2, hsplit2, hout2, hnames2]
    exact hsplice _

/-- C2 counterexample: with two placeholders the transformation is NOT
idempotent.  The first run replaces both `[TOC]` marks with
marker-delimited blocks; the second run's collapse regex is greedy and
matches from the first `TOC_BEGIN` to the last `TOC_END`, so it swallows
the text `mid` between the two blocks, and the second output differs from
the first. -/
theorem spec_c2_counterexample :
    generate_content (generate_content "[TOC]\nmid\n[TOC]".data) ≠
      generate_content "[TOC]\nmid\n[TOC]".data := by
  decide

/-- Witness for the amended C2 on a concrete single-placeholder document
(with a header carrying a stale number that gets renumbered). -/
theorem spec_c2_idempotent_restricted_witness :
    countOcc TOC_MARK "[TOC]\n# T\n## 7 Alpha\ntext".data ≤ 1 ∧
    containsSub "%TOC".data "[TOC]\n# T\n## 7 Alpha\ntext".data = false ∧
    '\\' ∉ "[TOC]\n# T\n## 7 Alpha\ntext".data ∧
    generate_content (generate_content "[TOC]\n# T\n## 7 Alpha\ntext".data) =
      generate_content "[TOC]\n# T\n## 7 Alpha\ntext".data :=
  ⟨by decide, by decide, by decide,
    spec_c2_idempotent_restricted "[TOC]\n# T\n## 7 Alpha\ntext".data
      (by decide) (by decide) (by decide)⟩
